import Mathlib

/-!
Verification of the WORLD.AI agent simulation (src/VERSIONS/V0.4.py).

Shallow embedding conventions:
* Python floats are modelled as exact rationals (`ℚ`).  All numeric constants
  of the program (decay rates, thresholds, speeds) are exactly representable.
* Python dicts are modelled as association lists with insert-or-replace
  (`dictSet`), preserving insertion order of keys exactly as CPython does.
* `math.hypot` appears in two places.  In comparisons (`dist < MOVE_SPEED`,
  sorting by distance) it is eliminated exactly: `hypot` is strictly monotone
  in the squared distance, so `hypot d < c` is replaced by `d² < c²` and the
  sort by `(hypot d, name)` by the sort by `(d², name)`, which order pairs
  identically in exact arithmetic.  The one place where the *value* of
  `hypot` enters the state — the non-snap movement step
  `pos += (d/hypot d) * MOVE_SPEED`, which is irrational in exact
  arithmetic — is modelled as an explicit displacement parameter `MoveStep`;
  no claim depends on the produced position, and every theorem below is
  universally quantified over it.
* The BFS loop of `PathGraph.find` is given explicit fuel so that it is
  structurally recursive (and hence evaluates inside the kernel); the fuel
  bound `|Σ adjacency values| + 2` is proved sufficient in the pathfinding
  theorems (each loop iteration either shrinks the queue or moves a fresh
  adjacency value into `seen`).
-/

/-- Numeric constants of `Config` (the fields the simulation core reads). -/
def MOVE_SPEED : ℚ := 5

/-- Per-tick decay subtracted from every need (`Config.NEED_DECAY`). -/
def NEED_DECAY : ℚ := 6/1000

/-- Critical threshold below which a need damages health (`Config.CRITICAL`). -/
def CRITICAL : ℚ := 5/2

/-- Health cap (`Config.MAX_HEALTH`). -/
def MAX_HEALTH : ℚ := 100

/-- Zone types (`class ZoneType(Enum)`). -/
inductive ZoneType where
  | HOME | WORK | CAFE | PARK | ROAD
deriving DecidableEq

/-- Agent goals (`class Goal(Enum)`). -/
inductive Goal where
  | IDLE | GO_HOME | GO_WORK | GO_CAFE | GO_PARK
deriving DecidableEq

/-- `ZONE_FOR_GOAL.get(goal)`: the zone type a non-idle goal resolves to
(`None` for `IDLE`, which is absent from the dict). -/
def zoneForGoal : Goal → Option ZoneType
  | .GO_HOME => some .HOME
  | .GO_WORK => some .WORK
  | .GO_CAFE => some .CAFE
  | .GO_PARK => some .PARK
  | .IDLE => none

/-- `NEED_NAMES.get(k, k)`: display name of a need key (Russian labels). -/
def needName (k : String) : String :=
  if k = "hunger" then "Голод"
  else if k = "energy" then "Энергия"
  else if k = "social" then "Общение"
  else if k = "work" then "Работа"
  else k

/-- Integer rectangle, mirroring `pygame.Rect(x, y, w, h)`. -/
structure Rect where
  x : Int
  y : Int
  w : Int
  h : Int
deriving DecidableEq

/-- `Rect.center`: pygame computes `(x + w // 2, y + h // 2)`. -/
def Rect.center (r : Rect) : Int × Int := (r.x + r.w / 2, r.y + r.h / 2)

/-- `Rect.collidepoint(px, py)`: inside test, right/bottom edges excluded.
The exact-arithmetic model compares the rational position directly. -/
def Rect.containsPt (r : Rect) (p : ℚ × ℚ) : Bool :=
  decide ((r.x : ℚ) ≤ p.1) && decide (p.1 < (r.x : ℚ) + r.w) &&
  decide ((r.y : ℚ) ≤ p.2) && decide (p.2 < (r.y : ℚ) + r.h)

/-- `@dataclass Zone`. -/
structure Zone where
  name : String
  type : ZoneType
  rect : Rect
  color : Int × Int × Int
deriving DecidableEq

/-- Derived center point of a zone (`Zone.center`). -/
def Zone.center (z : Zone) : Int × Int := z.rect.center

/-- Python-dict assignment `d[k] = v` on an association list: replaces the
value in place if the key exists (keeping its position), appends otherwise. -/
def dictSet {α : Type} (l : List (String × α)) (k : String) (v : α) :
    List (String × α) :=
  if (l.lookup k).isSome then
    l.map (fun kv => if kv.1 = k then (k, v) else kv)
  else l ++ [(k, v)]

/-- Squared Euclidean distance between two integer centers. -/
def sqDist (p q : Int × Int) : Int := (p.1 - q.1) ^ 2 + (p.2 - q.2) ^ 2

/-- Code-point comparison of characters (as Python compares strings). -/
def charLt (a b : Char) : Bool := a.toNat < b.toNat

/-- Lexicographic code-point order on char lists (Python string `<`). -/
def lexLt : List Char → List Char → Bool
  | [], [] => false
  | [], _ :: _ => true
  | _ :: _, [] => false
  | a :: as, b :: bs => charLt a b || (a = b && lexLt as bs)

/-- Python tuple order on `(squared distance, name)` pairs.  `sorted` on
`(hypot d, name)` tuples orders by distance with ties broken by name;
squaring preserves both the order and the ties exactly. -/
def tupleLe (x y : Int × String) : Bool :=
  decide (x.1 < y.1) ||
    (decide (x.1 = y.1) && (lexLt x.2.data y.2.data || decide (x.2 = y.2)))

/-- Insert into a sorted list (stable insertion, earlier elements first). -/
def insSorted {α : Type} (le : α → α → Bool) (x : α) : List α → List α
  | [] => [x]
  | y :: ys => if le x y then x :: y :: ys else y :: insSorted le x ys

/-- Stable insertion sort modelling Python `sorted`. -/
def insSort {α : Type} (le : α → α → Bool) : List α → List α
  | [] => []
  | x :: xs => insSorted le x (insSort le xs)

/-- `PathGraph`: zone-name-indexed center and adjacency dicts. -/
structure PathGraph where
  pos : List (String × (Int × Int))
  adj : List (String × List String)
deriving DecidableEq

/-- `self.pos[n]` (only ever used with names present in the dict; absent
names default to the origin in the model). -/
def posLookup (m : List (String × (Int × Int))) (n : String) : Int × Int :=
  (m.lookup n).getD (0, 0)

/-- `self.pos[n]` on a built graph. -/
def PathGraph.posD (g : PathGraph) (n : String) : Int × Int :=
  posLookup g.pos n

/-- `self.adj.get(n, [])`. -/
def adjGet (adj : List (String × List String)) (n : String) : List String :=
  (adj.lookup n).getD []

/-- `if nb not in self.adj[a]: self.adj[a].append(nb)` — guarded append to
one adjacency list (no-op on a missing key, which never occurs: every zone
name is initialised first). -/
def adjAppend (adj : List (String × List String)) (k v : String) :
    List (String × List String) :=
  adj.map (fun kv =>
    if kv.1 = k then (if v ∈ kv.2 then kv else (kv.1, kv.2 ++ [v])) else kv)

/-- First loop of `PathGraph.__init__`: `pos[z.name] = z.center;
adj[z.name] = []` over the zone list. -/
def initMaps (zones : List Zone) :
    List (String × (Int × Int)) × List (String × List String) :=
  zones.foldl (fun m z => (dictSet m.1 z.name z.center, dictSet m.2 z.name []))
    ([], [])

/-- The sorted `(distance, name)` candidate list built for zone `a`. -/
def sortedDists (pos : List (String × (Int × Int))) (names : List String)
    (a : String) : List (Int × String) :=
  insSort tupleLe
    ((names.filter (fun b => !decide (a = b))).map
      (fun b => (sqDist (posLookup pos a) (posLookup pos b), b)))

/-- Body of the second loop of `PathGraph.__init__` for one zone `a`: link
it with its four nearest candidates in both directions. -/
def buildStep (pos : List (String × (Int × Int))) (names : List String)
    (adj : List (String × List String)) (a : String) :
    List (String × List String) :=
  ((sortedDists pos names a).take 4).foldl
    (fun adj2 p => adjAppend (adjAppend adj2 a p.2) p.2 a) adj

/-- Second loop of `PathGraph.__init__` over every name. -/
def buildAdj (pos : List (String × (Int × Int)))
    (adj0 : List (String × List String)) : List (String × List String) :=
  let names := pos.map Prod.fst
  names.foldl (buildStep pos names) adj0

/-- `PathGraph(zones)`. -/
def PathGraph.ofZones (zones : List Zone) : PathGraph :=
  let m := initMaps zones
  { pos := m.1, adj := buildAdj m.1 m.2 }

/-- One expansion step of the BFS loop body: walk the neighbour list,
enqueueing `path + [nb]` and marking `nb` seen for each unseen neighbour. -/
def stepExpand (p : List String) (nbrs : List String)
    (q : List (List String)) (seen : List String) :
    List (List String) × List String :=
  match nbrs with
  | [] => (q, seen)
  | nb :: rest =>
    if nb ∈ seen then stepExpand p rest q seen
    else stepExpand p rest (q ++ [p ++ [nb]]) (nb :: seen)

/-- The BFS `while queue:` loop of `PathGraph.find`, with explicit fuel so
that the definition is structurally recursive.  `some (some p)` — a path to
`dest` was dequeued; `some none` — the queue ran dry; `none` — out of fuel
(proved unreachable for the fuel used by `find`). -/
def bfsRun (adj : List (String × List String)) (dest : String) :
    ℕ → List (List String) → List String → Option (Option (List String))
  | 0, _, _ => none
  | _ + 1, [], _ => some none
  | fuel + 1, p :: rest, seen =>
    if p.getLastD "" = dest then some (some p)
    else
      bfsRun adj dest fuel
        (stepExpand p (adjGet adj (p.getLastD "")) rest seen).1
        (stepExpand p (adjGet adj (p.getLastD "")) rest seen).2

/-- All values appearing in adjacency lists; only these can enter `seen`. -/
def univList (adj : List (String × List String)) : List String :=
  (adj.map Prod.snd).flatten

/-- `PathGraph.find(start, dest)`: single-point path when `start == dest`,
else BFS over zone names, with the two-point fallback when no path exists.
Fuel exhaustion (never reached) also lands on the fallback. -/
def PathGraph.find (g : PathGraph) (start dest : String) :
    List (Int × Int) :=
  if start = dest then [g.posD start]
  else
    match bfsRun g.adj dest ((univList g.adj).length + 2) [[start]] [start] with
    | some (some p) => p.map g.posD
    | _ => [g.posD start, g.posD dest]

/-- The four needs of an agent; the field order is the dict insertion order
of `Agent.__post_init__` (`hunger, energy, social, work`), which fixes the
iteration order of every loop over `self.needs`. -/
structure Needs where
  hunger : ℚ
  energy : ℚ
  social : ℚ
  work : ℚ
deriving DecidableEq

/-- `self.needs` as the ordered `(key, value)` pairs Python iterates over. -/
def Needs.pairs (n : Needs) : List (String × ℚ) :=
  [("hunger", n.hunger), ("energy", n.energy), ("social", n.social),
   ("work", n.work)]

/-- Left fold of Python `min(keys, key=get)`: keeps the earlier element
unless a strictly smaller value appears, so ties resolve to the first key
in iteration order. -/
def minKeyAux : String × ℚ → List (String × ℚ) → String
  | best, [] => best.1
  | best, kv :: rest =>
    if kv.2 < best.2 then minKeyAux kv rest else minKeyAux best rest

/-- `min(self.needs, key=self.needs.get)`: first key achieving the minimum. -/
def Needs.worstKey (n : Needs) : String :=
  minKeyAux ("hunger", n.hunger)
    [("energy", n.energy), ("social", n.social), ("work", n.work)]

/-- Movement displacement oracle for the non-snap branch of `Agent._move`:
Python computes `pos + (d / math.hypot d) * MOVE_SPEED`, an irrational
point in exact arithmetic; the theorems quantify over this function. -/
def MoveStep : Type := (ℚ × ℚ) → (Int × Int) → ℚ × ℚ

/-- `@dataclass Agent` (the `thought` display string included; initial
random needs are supplied by the caller, see `mkAgent`). -/
structure Agent where
  id : String
  name : String
  color : Int × Int × Int
  home : Zone
  graph : PathGraph
  zones : List Zone
  pos : ℚ × ℚ
  zone : Option Zone
  health : ℚ
  alive : Bool
  death_reason : String
  thought : String
  needs : Needs
  goal : Goal
  target : Option Zone
  path : List (Int × Int)
  path_i : ℕ
  wait : ℕ
deriving DecidableEq

/-- `Agent._decay`: every need drops by `NEED_DECAY`, floored at 0. -/
def Agent.decay (a : Agent) : Agent :=
  { a with needs :=
    { hunger := max 0 (a.needs.hunger - NEED_DECAY),
      energy := max 0 (a.needs.energy - NEED_DECAY),
      social := max 0 (a.needs.social - NEED_DECAY),
      work := max 0 (a.needs.work - NEED_DECAY) } }

/-- The `ZONE_EFFECTS` table: per-tick need boosts of a zone type, each
capped at 10 (`ROAD` has no entry). -/
def zoneBoost (zt : ZoneType) (n : Needs) : Needs :=
  match zt with
  | .HOME => { n with energy := min 10 (n.energy + 12/100) }
  | .WORK => { n with work := min 10 (n.work + 15/100) }
  | .CAFE => { n with hunger := min 10 (n.hunger + 18/100),
                      social := min 10 (n.social + 8/100) }
  | .PARK => { n with energy := min 10 (n.energy + 6/100),
                      social := min 10 (n.social + 10/100) }
  | .ROAD => n

/-- `Agent._zone_effect`: apply the `ZONE_EFFECTS` entry of the current
zone's type (no zone → no effect). -/
def Agent.zoneEffect (a : Agent) : Agent :=
  match a.zone with
  | none => a
  | some z => { a with needs := zoneBoost z.type a.needs }

/-- `sum(1 for v in self.needs.values() if v < CRITICAL)`: number of needs
strictly below `CRITICAL`, summed over the four values in dict order. -/
def Needs.critCount (n : Needs) : ℕ :=
  (if n.hunger < CRITICAL then 1 else 0) + (if n.energy < CRITICAL then 1 else 0) +
  (if n.social < CRITICAL then 1 else 0) + (if n.work < CRITICAL then 1 else 0)

/-- The health update of `Agent._health_check` before the death test:
damage proportional to the critical count, else regeneration capped at
`MAX_HEALTH`. -/
def healthStep (crit : ℕ) (h : ℚ) : ℚ :=
  if 0 < crit then h - 3/100 * crit else min MAX_HEALTH (h + 1/100)

/-- `Agent._health_check`: the `healthStep` update, then the death
transition at health ≤ 0 — flag flip, clamp to 0, death reason from the
lowest need, path cleared. -/
def Agent.healthCheck (a : Agent) : Agent :=
  if healthStep a.needs.critCount a.health ≤ 0 then
    { a with health := 0, alive := false,
             death_reason := needName a.needs.worstKey, path := [] }
  else { a with health := healthStep a.needs.critCount a.health }

/-- The snap test of `Agent._move`: `math.hypot(dx, dy) < MOVE_SPEED`,
compared exactly via squares. -/
def sqNear (p : ℚ × ℚ) (t : Int × Int) : Bool :=
  decide (((t.1 : ℚ) - p.1) ^ 2 + ((t.2 : ℚ) - p.2) ^ 2 < MOVE_SPEED ^ 2)

/-- `Agent._move`: follow the path; snap to the waypoint (the cursor is
advanced, and the updated cursor is re-compared with the path length,
clearing the path and going `IDLE` at the end); otherwise step by `mv`. -/
def Agent.move (mv : MoveStep) (a : Agent) : Agent :=
  if a.path = [] ∨ a.path.length ≤ a.path_i then a
  else if sqNear a.pos (a.path.getD a.path_i (0, 0)) then
    if a.path.length ≤ a.path_i + 1 then
      { a with pos := (((a.path.getD a.path_i (0, 0)).1 : ℚ),
                       ((a.path.getD a.path_i (0, 0)).2 : ℚ)),
               path_i := a.path_i + 1, path := [], goal := Goal.IDLE, wait := 0 }
    else
      { a with pos := (((a.path.getD a.path_i (0, 0)).1 : ℚ),
                       ((a.path.getD a.path_i (0, 0)).2 : ℚ)),
               path_i := a.path_i + 1 }
  else { a with pos := mv a.pos (a.path.getD a.path_i (0, 0)) }

/-- `Agent._detect_zone`: first zone whose rect contains the position. -/
def Agent.detectZone (a : Agent) : Agent :=
  { a with zone := a.zones.find? (fun z => z.rect.containsPt a.pos) }

/-- `Agent.tick`: no-op when dead, else decay → zone effect → health check
→ move → zone re-detection (written `tickBody`), and the idle-wait
increment. -/
def Agent.tickBody (mv : MoveStep) (a : Agent) : Agent :=
  ((((a.decay).zoneEffect).healthCheck).move mv).detectZone

/-- See `Agent.tickBody`. -/
def Agent.tick (mv : MoveStep) (a : Agent) : Agent :=
  if a.alive = false then a
  else if (a.tickBody mv).goal = Goal.IDLE then
    { a.tickBody mv with wait := (a.tickBody mv).wait + 1 }
  else a.tickBody mv

/-- `Agent.assign(goal, target)`: silently rejected when dead; `IDLE`
clears goal/target/path; no-op when already inside the target zone or when
the same (goal, target) is in progress with a path; otherwise set the goal,
reset the wait counter and recompute the path from the current (or home)
zone. -/
def Agent.assign (a : Agent) (g : Goal) (target : Option Zone) : Agent :=
  if a.alive = false then a
  else if g = Goal.IDLE then
    { a with goal := Goal.IDLE, target := none, path := [] }
  else if (match a.zone, target with
           | some z, some t => decide (z.name = t.name)
           | _, _ => false) = true then a
  else if a.goal = g ∧ a.target = target ∧ a.path ≠ [] then a
  else
    let a2 := { a with goal := g, target := target, wait := 0 }
    match target with
    | some t =>
      let start := match a2.zone with
        | some z => z.name
        | none => a2.home.name
      { a2 with path := a2.graph.find start t.name, path_i := 0 }
    | none => a2

/-- `World`: zone list, graph, id-keyed agent dict, tick counter. -/
structure World where
  zones : List Zone
  graph : PathGraph
  agents : List (String × Agent)
  tick_count : ℕ
deriving DecidableEq

/-- `World.zone_by_type`: first zone of the given type, if any. -/
def World.zone_by_type (w : World) (zt : ZoneType) : Option Zone :=
  w.zones.find? (fun z => decide (z.type = zt))

/-- The fixed zone set of `World._make_zones`. -/
def worldZones : List Zone :=
  [Zone.mk "home_a" .HOME ⟨50, 70, 130, 130⟩ (40, 45, 75),
   Zone.mk "home_b" .HOME ⟨50, 260, 130, 130⟩ (40, 45, 75),
   Zone.mk "home_c" .HOME ⟨50, 450, 130, 130⟩ (40, 45, 75),
   Zone.mk "office" .WORK ⟨700, 140, 200, 180⟩ (65, 50, 40),
   Zone.mk "cafe" .CAFE ⟨400, 70, 170, 150⟩ (75, 55, 45),
   Zone.mk "park" .PARK ⟨400, 450, 260, 180⟩ (35, 65, 45),
   Zone.mk "road" .ROAD ⟨260, 0, 50, 700⟩ (30, 30, 35)]

/-- `Agent.__post_init__` plus the `a.zones = self.zones` fix-up of
`World._make_agents`: the agent starts at its home center, inside its home
zone, fully healthy.  The initial needs are drawn with `random.uniform` in
the source and are therefore a parameter of the model. -/
def mkAgent (i nm : String) (c : Int × Int × Int) (home : Zone)
    (g : PathGraph) (zs : List Zone) (needs0 : Needs) : Agent :=
  { id := i, name := nm, color := c, home := home, graph := g, zones := zs,
    pos := ((home.center.1 : ℚ), (home.center.2 : ℚ)), zone := some home,
    health := 100, alive := true, death_reason := "", thought := "...",
    needs := needs0, goal := Goal.IDLE, target := none, path := [],
    path_i := 0, wait := 0 }

/-- Placeholder zone for (never-taken) list defaults. -/
def dummyZone : Zone := Zone.mk "" .ROAD ⟨0, 0, 0, 0⟩ (0, 0, 0)

/-- `World.__init__` with the three agents of `_make_agents` (each agent's
home is the matching element of the HOME-typed zone sublist); the random
initial needs are parameters. -/
def mkWorld (nA nB nC : Needs) : World :=
  let g := PathGraph.ofZones worldZones
  let homes := worldZones.filter (fun z => decide (z.type = ZoneType.HOME))
  { zones := worldZones, graph := g,
    agents :=
      [("A", mkAgent "A" "Alice" (10, 132, 255) (homes.getD 0 dummyZone)
          g worldZones nA),
       ("B", mkAgent "B" "Bob" (48, 209, 88) (homes.getD 1 dummyZone)
          g worldZones nB),
       ("C", mkAgent "C" "Charlie" (255, 159, 10) (homes.getD 2 dummyZone)
          g worldZones nC)],
    tick_count := 0 }

/-- Parsed JSON values (`json.loads` results); numbers keep their source
token, which is all the goal-application code can observe of them. -/
inductive Json where
  | null
  | bool (b : Bool)
  | num (raw : String)
  | str (s : String)
  | arr (elems : List Json)
  | obj (fields : List (String × Json))

/-- JSON insignificant whitespace (exactly the four chars `json` skips). -/
def isJsonWs (c : Char) : Bool :=
  c = ' ' || c = '\n' || c = '\r' || c = '\t'

/-- Drop insignificant whitespace. -/
def skipWs (cs : List Char) : List Char := cs.dropWhile isJsonWs

/-- Hex digit value, if any. -/
def hexVal (c : Char) : Option ℕ :=
  if '0' ≤ c ∧ c ≤ '9' then some (c.toNat - 48)
  else if 'a' ≤ c ∧ c ≤ 'f' then some (c.toNat - 87)
  else if 'A' ≤ c ∧ c ≤ 'F' then some (c.toNat - 70)
  else none

/-- Body of a JSON string after the opening quote: content plus remaining
input; strict mode (unescaped control characters rejected), the usual
escapes, and `\uXXXX` as a single code point. -/
def strBody : List Char → Option (List Char × List Char)
  | [] => none
  | '"' :: rest => some ([], rest)
  | '\\' :: 'u' :: h1 :: h2 :: h3 :: h4 :: rest => do
    let v1 ← hexVal h1
    let v2 ← hexVal h2
    let v3 ← hexVal h3
    let v4 ← hexVal h4
    let r ← strBody rest
    pure (Char.ofNat (((v1 * 16 + v2) * 16 + v3) * 16 + v4) :: r.1, r.2)
  | '\\' :: e :: rest =>
    let esc : Option Char :=
      if e = '"' then some '"' else if e = '\\' then some '\\'
      else if e = '/' then some '/' else if e = 'b' then some (Char.ofNat 8)
      else if e = 'f' then some (Char.ofNat 12) else if e = 'n' then some '\n'
      else if e = 'r' then some '\r' else if e = 't' then some '\t' else none
    match esc with
    | none => none
    | some ch => (strBody rest).map (fun r => (ch :: r.1, r.2))
  | c :: rest =>
    if c.toNat < 32 then none
    else (strBody rest).map (fun r => (c :: r.1, r.2))

/-- Decimal digit test. -/
def isDig (c : Char) : Bool := '0' ≤ c && c ≤ '9'

/-- JSON number token: `-?(0|[1-9][0-9]*)(\.[0-9]+)?([eE][+-]?[0-9]+)?`. -/
def numToken (cs : List Char) : Option (List Char × List Char) :=
  let (sign, cs1) :=
    match cs with
    | '-' :: rest => (['-'], rest)
    | _ => (([] : List Char), cs)
  let intp := cs1.takeWhile isDig
  let cs2 := cs1.dropWhile isDig
  if intp = [] then none
  else if intp.length > 1 ∧ intp.getD 0 ' ' = '0' then none
  else
    let (frac, cs3) :=
      match cs2 with
      | '.' :: rest =>
        let fd := rest.takeWhile isDig
        if fd = [] then (none, cs2) else (some ('.' :: fd), rest.dropWhile isDig)
      | _ => (none, cs2)
    match frac with
    | none =>
      -- no (valid) fraction: exponent may still follow the integer part
      let (ex, cs4) := expPart cs3
      match ex with
      | none => some (sign ++ intp, cs3)
      | some ecs => some (sign ++ intp ++ ecs, cs4)
    | some fcs =>
      let (ex, cs4) := expPart cs3
      match ex with
      | none => some (sign ++ intp ++ fcs, cs3)
      | some ecs => some (sign ++ intp ++ fcs ++ ecs, cs4)
where
  /-- Optional exponent part. -/
  expPart (cs : List Char) : Option (List Char) × List Char :=
    match cs with
    | e :: rest =>
      if e = 'e' ∨ e = 'E' then
        let (s2, rest2) :=
          match rest with
          | '+' :: r => (['+'], r)
          | '-' :: r => (['-'], r)
          | _ => (([] : List Char), rest)
        let ds := rest2.takeWhile isDig
        if ds = [] then (none, cs)
        else (some (e :: s2 ++ ds), rest2.dropWhile isDig)
      else (none, cs)
    | [] => (none, cs)

mutual

/-- JSON value parser (recursive descent, as `json.loads` does); the fuel
argument makes the mutual recursion structural and is always supplied large
enough (`jsonLoads` passes the input length plus one, and every recursive
call consumes at least one character first). -/
def parseVal : ℕ → List Char → Option (Json × List Char)
  | 0, _ => none
  | fuel + 1, cs =>
    match skipWs cs with
    | '\x7b' :: rest =>
      match skipWs rest with
      | '\x7d' :: rest2 => some (.obj [], rest2)
      | _ => (parseMembers fuel rest).map (fun r => (Json.obj r.1, r.2))
    | '[' :: rest =>
      match skipWs rest with
      | ']' :: rest2 => some (.arr [], rest2)
      | _ => (parseElems fuel rest).map (fun r => (Json.arr r.1, r.2))
    | '"' :: rest =>
      (strBody rest).map (fun r => (Json.str (String.mk r.1), r.2))
    | 't' :: 'r' :: 'u' :: 'e' :: rest => some (.bool true, rest)
    | 'f' :: 'a' :: 'l' :: 's' :: 'e' :: rest => some (.bool false, rest)
    | 'n' :: 'u' :: 'l' :: 'l' :: rest => some (.null, rest)
    | cs2 => (numToken cs2).map (fun r => (Json.num (String.mk r.1), r.2))

/-- Members of a JSON object after the opening brace (non-empty case):
`"key" : value` pairs separated by commas, closed by a brace. -/
def parseMembers : ℕ → List Char → Option (List (String × Json) × List Char)
  | 0, _ => none
  | fuel + 1, cs =>
    match skipWs cs with
    | '"' :: rest =>
      match strBody rest with
      | none => none
      | some (key, rest2) =>
        match skipWs rest2 with
        | ':' :: rest3 =>
          match parseVal fuel rest3 with
          | none => none
          | some (v, rest4) =>
            match skipWs rest4 with
            | ',' :: rest5 =>
              (parseMembers fuel rest5).map
                (fun r => ((String.mk key, v) :: r.1, r.2))
            | '\x7d' :: rest5 => some ([(String.mk key, v)], rest5)
            | _ => none
        | _ => none
    | _ => none

/-- Elements of a JSON array after the opening bracket (non-empty case). -/
def parseElems : ℕ → List Char → Option (List Json × List Char)
  | 0, _ => none
  | fuel + 1, cs =>
    match parseVal fuel cs with
    | none => none
    | some (v, rest) =>
      match skipWs rest with
      | ',' :: rest2 => (parseElems fuel rest2).map (fun r => (v :: r.1, r.2))
      | ']' :: rest2 => some ([v], rest2)
      | _ => none

end

/-- `json.loads`: parse one value and require only whitespace after it. -/
def jsonLoads (s : String) : Option Json :=
  match parseVal (s.data.length + 1) s.data with
  | some (v, rest) => if skipWs rest = [] then some v else none
  | none => none

/-- The opening brace character. -/
def lbrace : Char := '\x7b'

/-- The closing brace character. -/
def rbrace : Char := '\x7d'

/-- `re.search(r"\{[\s\S]*\}", text)`: the regex is greedy, so a match —
when one exists — runs from the *first* opening brace of the whole text to
the *last* closing brace, and a match exists iff some closing brace occurs
after the first opening brace. -/
def extractBraces (t : String) : Option String :=
  if ((t.data.dropWhile (fun c => !decide (c = lbrace))).reverse.dropWhile
        (fun c => !decide (c = rbrace))).reverse = [] then none
  else
    some (String.mk
      ((t.data.dropWhile (fun c => !decide (c = lbrace))).reverse.dropWhile
        (fun c => !decide (c = rbrace))).reverse)

/-- Python `str()` of a parsed JSON value, to the extent the goal lookup
can observe it: strings map to themselves and every other value maps to a
string that is never a goal keyword (numbers to their token, `True/False/
None` to their Python spelling, containers to a bracketed rendering — the
goal table only ever matches bare lowercase words). -/
def pyStr : Json → String
  | .str s => s
  | .bool true => "True"
  | .bool false => "False"
  | .null => "None"
  | .num raw => raw
  | .arr _ => "[…]"
  | .obj _ => "\x7b…\x7d"

/-- Python `str.strip` whitespace (the ASCII part; goal strings are ASCII). -/
def pyWs (c : Char) : Bool :=
  c = ' ' || c = '\n' || c = '\r' || c = '\t' || c = '\x0b' || c = '\x0c'

/-- `s.strip()`. -/
def pyStrip (cs : List Char) : List Char :=
  ((cs.dropWhile pyWs).reverse.dropWhile pyWs).reverse

/-- `c.lower()` for one character (ASCII; goal strings are ASCII). -/
def lowerChar (c : Char) : Char :=
  if 65 ≤ c.toNat ∧ c.toNat ≤ 90 then Char.ofNat (c.toNat + 32) else c

/-- `str(...).strip().lower()` applied to a goal value. -/
def normGoal (s : String) : String :=
  String.mk ((pyStrip s.data).map lowerChar)

/-- The `goal_map` dict of `Brain._parse`. -/
def goalMap (s : String) : Option Goal :=
  if s = "idle" then some .IDLE
  else if s = "go_home" then some .GO_HOME
  else if s = "go_work" then some .GO_WORK
  else if s = "go_cafe" then some .GO_CAFE
  else if s = "go_park" then some .GO_PARK
  else none

/-- Replace the stored agent under one id (`self.world.agents[aid]` is
re-bound by `agent.assign` mutating in place). -/
def World.setAgent (w : World) (aid : String) (ag : Agent) : World :=
  { w with agents := w.agents.map (fun kv => if kv.1 = aid then (aid, ag) else kv) }

/-- The `for aid, act in data.items():` loop of `Brain._parse`, applied
entry by entry.  A non-dict `act` raises `AttributeError` at `act.get`,
which aborts the loop (earlier entries stay applied) and is reported to the
caller as the error string. -/
def applyEntries : List (String × Json) → World → World × Option String
  | [], w => (w, none)
  | (aid, act) :: rest, w =>
    match w.agents.lookup aid with
    | none => applyEntries rest w
    | some ag =>
      if ag.alive = false then applyEntries rest w
      else
        match act with
        | .obj fields =>
          let raw_goal := normGoal (pyStr ((fields.lookup "goal").getD (.str "")))
          match goalMap raw_goal with
          | none => applyEntries rest w
          | some Goal.IDLE => applyEntries rest w
          | some g =>
            match zoneForGoal g with
            | none => applyEntries rest w
            | some zt =>
              let target :=
                if g = Goal.GO_HOME then some ag.home else w.zone_by_type zt
              match target with
              | some t => applyEntries rest (w.setAgent aid (ag.assign g (some t)))
              | none => applyEntries rest w
        | _ => (w, some "AttributeError")

/-- `Brain._parse(text)`: locate the greedy brace span, `json.loads` it
(silently giving up on a decode error), then apply the entries.  The
second component is the pending exception, if one escaped the loop. -/
def brainParse (text : String) (w : World) : World × Option String :=
  match extractBraces text with
  | none => (w, none)
  | some s =>
    match jsonLoads s with
    | none => (w, none)
    | some (.obj fields) => applyEntries fields w
    | some _ => (w, some "AttributeError")

/-- Oracle connection state (`Brain.raw`, `Brain.busy`). -/
structure Brain where
  raw : String
  busy : Bool
deriving DecidableEq

/-- `Brain.decide()`, with the network exchange `self._ask(prompt)`
abstracted as its outcome `ask` (`Except.error e` models a raised
request/HTTP/timeout exception with text `e`, `Except.ok c` a 200 reply
with content `c`).  Mirrors the `try/except/finally`: on any exception the
error text becomes `raw`, and `busy` is always reset. -/
def Brain.decideF (ask : Except String String) (br : Brain) (w : World) :
    Brain × World :=
  if br.busy then (br, w)
  else
    match ask with
    | .error e => ({ raw := e, busy := false }, w)
    | .ok content =>
      match brainParse content w with
      | (w2, none) => ({ raw := content, busy := false }, w2)
      | (w2, some err) => ({ raw := err, busy := false }, w2)

set_option maxRecDepth 200000

/-- Identity displacement, used to instantiate `MoveStep` in witnesses. -/
def mvId : MoveStep := fun p _ => p

/-- Initial needs used by concrete witness worlds. -/
def n6 : Needs := ⟨6, 6, 6, 6⟩

/-- A concrete world (all three agents alive, mid-range needs). -/
def wTest : World := mkWorld n6 n6 n6

/-- Dead agents are frozen by `tick` (first line of `Agent.tick`). -/
theorem Agent.tick_dead (mv : MoveStep) (a : Agent) (h : a.alive = false) :
    Agent.tick mv a = a := by
  unfold Agent.tick
  rw [if_pos h]

/-- Dead agents reject `assign` (first line of `Agent.assign`). -/
theorem Agent.assign_dead (a : Agent) (g : Goal) (z : Option Zone)
    (h : a.alive = false) : Agent.assign a g z = a := by
  unfold Agent.assign
  rw [if_pos h]

/-- C7: for every agent with `alive = false`, `tick()` changes no part of
the agent's state and `assign(goal, target)` with any arguments changes no
part of the agent's state (both return the record unchanged; the movement
displacement is universally quantified). -/
theorem dead_agent_inert (mv : MoveStep) (a : Agent) (h : a.alive = false) :
    Agent.tick mv a = a ∧ ∀ (g : Goal) (z : Option Zone), Agent.assign a g z = a :=
  ⟨Agent.tick_dead mv a h, fun g z => Agent.assign_dead a g z h⟩

/-- A concrete dead agent for witnesses. -/
def aDead : Agent :=
  { mkAgent "A" "Alice" (10, 132, 255) dummyZone (PathGraph.ofZones worldZones)
      worldZones n6 with alive := false }

/-- Witness for C7 at a concrete dead agent. -/
theorem dead_agent_inert_witness :
    Agent.tick mvId aDead = aDead ∧ Agent.assign aDead Goal.GO_CAFE none = aDead := by
  have h := dead_agent_inert mvId aDead (by decide)
  exact ⟨h.1, h.2 Goal.GO_CAFE none⟩

/-- C9: `decide()` while the oracle is already busy issues no request
(the outcome is independent of the `ask` oracle) and leaves the brain state
and world exactly unchanged. -/
theorem decide_busy_noop (ask : Except String String) (br : Brain) (w : World)
    (h : br.busy = true) : Brain.decideF ask br w = (br, w) := by
  unfold Brain.decideF
  rw [if_pos h]

/-- Witness for C9 at a concrete busy brain and world. -/
theorem decide_busy_noop_witness :
    Brain.decideF (Except.error "timeout") ⟨"old raw", true⟩ wTest =
      (⟨"old raw", true⟩, wTest) :=
  decide_busy_noop (Except.error "timeout") ⟨"old raw", true⟩ wTest rfl

/-- C6: a decision round hitting a transport error (the request raises,
modelled by `Except.error e`) or a parse error (no brace span, or the span
is not valid JSON) mutates no agent, always ends with `busy = false`, and
on a caught exception stores the error text as the raw response; on a
parse error the content itself stays stored.  `Brain.decideF` is a total
function, which models that no exception escapes `decide()`. -/
theorem decide_error_no_mutation (br : Brain) (w : World) (hb : br.busy = false) :
    (∀ e : String,
      Brain.decideF (Except.error e) br w = ({ raw := e, busy := false }, w)) ∧
    (∀ c : String, extractBraces c = none →
      Brain.decideF (Except.ok c) br w = ({ raw := c, busy := false }, w)) ∧
    (∀ c s : String, extractBraces c = some s → jsonLoads s = none →
      Brain.decideF (Except.ok c) br w = ({ raw := c, busy := false }, w)) := by
  refine ⟨fun e => ?_, fun c hc => ?_, fun c s hc hs => ?_⟩
  · simp [Brain.decideF, hb]
  · simp [Brain.decideF, hb, brainParse, hc]
  · simp [Brain.decideF, hb, brainParse, hc, hs]

/-- Witness for C6: a timeout-style exception and the "I cannot help"
reply from the spec, on the concrete world. -/
theorem decide_error_no_mutation_witness :
    Brain.decideF (Except.error "HTTP 500") ⟨"", false⟩ wTest =
      ({ raw := "HTTP 500", busy := false }, wTest) ∧
    Brain.decideF (Except.ok "I cannot help") ⟨"", false⟩ wTest =
      ({ raw := "I cannot help", busy := false }, wTest) := by
  have h := decide_error_no_mutation ⟨"", false⟩ wTest rfl
  exact ⟨h.1 "HTTP 500", h.2.1 "I cannot help" (by decide)⟩

/-- Bounds invariant on the four needs ([0, 10] each). -/
def NeedsInBounds (n : Needs) : Prop :=
  (0 ≤ n.hunger ∧ n.hunger ≤ 10) ∧ (0 ≤ n.energy ∧ n.energy ≤ 10) ∧
  (0 ≤ n.social ∧ n.social ≤ 10) ∧ (0 ≤ n.work ∧ n.work ≤ 10)

instance (n : Needs) : Decidable (NeedsInBounds n) := by
  unfold NeedsInBounds
  infer_instance

theorem Agent.decay_health (a : Agent) : (a.decay).health = a.health := rfl

theorem Agent.decay_alive (a : Agent) : (a.decay).alive = a.alive := rfl

theorem Agent.decay_zone (a : Agent) : (a.decay).zone = a.zone := rfl

theorem Agent.decay_path (a : Agent) : (a.decay).path = a.path := rfl

theorem Agent.decay_goal (a : Agent) : (a.decay).goal = a.goal := rfl

theorem Agent.zoneEffect_health (a : Agent) :
    (a.zoneEffect).health = a.health := by
  unfold Agent.zoneEffect
  cases a.zone <;> rfl

theorem Agent.zoneEffect_alive (a : Agent) :
    (a.zoneEffect).alive = a.alive := by
  unfold Agent.zoneEffect
  cases a.zone <;> rfl

theorem Agent.zoneEffect_path (a : Agent) :
    (a.zoneEffect).path = a.path := by
  unfold Agent.zoneEffect
  cases a.zone <;> rfl

theorem Agent.zoneEffect_goal (a : Agent) :
    (a.zoneEffect).goal = a.goal := by
  unfold Agent.zoneEffect
  cases a.zone <;> rfl

theorem Agent.healthCheck_needs (a : Agent) :
    (a.healthCheck).needs = a.needs := by
  unfold Agent.healthCheck
  split <;> rfl

theorem Agent.healthCheck_goal (a : Agent) :
    (a.healthCheck).goal = a.goal := by
  unfold Agent.healthCheck
  split <;> rfl

theorem Agent.move_needs (mv : MoveStep) (a : Agent) :
    (a.move mv).needs = a.needs := by
  unfold Agent.move
  split
  · rfl
  · split
    · split <;> rfl
    · rfl

theorem Agent.move_health (mv : MoveStep) (a : Agent) :
    (a.move mv).health = a.health := by
  unfold Agent.move
  split
  · rfl
  · split
    · split <;> rfl
    · rfl

theorem Agent.move_alive (mv : MoveStep) (a : Agent) :
    (a.move mv).alive = a.alive := by
  unfold Agent.move
  split
  · rfl
  · split
    · split <;> rfl
    · rfl

theorem Agent.move_death_reason (mv : MoveStep) (a : Agent) :
    (a.move mv).death_reason = a.death_reason := by
  unfold Agent.move
  split
  · rfl
  · split
    · split <;> rfl
    · rfl

theorem Agent.detectZone_needs (a : Agent) : (a.detectZone).needs = a.needs := rfl

theorem Agent.detectZone_health (a : Agent) : (a.detectZone).health = a.health := rfl

theorem Agent.detectZone_alive (a : Agent) : (a.detectZone).alive = a.alive := rfl

theorem Agent.detectZone_path (a : Agent) : (a.detectZone).path = a.path := rfl

theorem Agent.detectZone_death_reason (a : Agent) :
    (a.detectZone).death_reason = a.death_reason := rfl

theorem Agent.detectZone_goal (a : Agent) : (a.detectZone).goal = a.goal := rfl

/-- Needs stay in [0, 10] through `_decay` (floored at 0, only decreasing). -/
theorem Agent.decay_needs_bounds (a : Agent) (h : NeedsInBounds a.needs) :
    NeedsInBounds (a.decay).needs := by
  obtain ⟨⟨h1, h2⟩, ⟨h3, h4⟩, ⟨h5, h6⟩, ⟨h7, h8⟩⟩ := h
  unfold Agent.decay
  refine ⟨⟨le_max_left _ _, ?_⟩, ⟨le_max_left _ _, ?_⟩,
          ⟨le_max_left _ _, ?_⟩, ⟨le_max_left _ _, ?_⟩⟩ <;>
    · apply max_le (by norm_num)
      unfold NEED_DECAY
      linarith

/-- Needs stay in [0, 10] through the zone boost (capped at 10). -/
theorem zoneBoost_bounds (zt : ZoneType) (n : Needs) (h : NeedsInBounds n) :
    NeedsInBounds (zoneBoost zt n) := by
  obtain ⟨⟨h1, h2⟩, ⟨h3, h4⟩, ⟨h5, h6⟩, ⟨h7, h8⟩⟩ := h
  cases zt <;>
    refine ⟨⟨?_, ?_⟩, ⟨?_, ?_⟩, ⟨?_, ?_⟩, ⟨?_, ?_⟩⟩ <;>
    simp [zoneBoost] <;>
    first
      | assumption
      | linarith

/-- Needs stay in [0, 10] through `_zone_effect`. -/
theorem Agent.zoneEffect_needs_bounds (a : Agent) (h : NeedsInBounds a.needs) :
    NeedsInBounds (a.zoneEffect).needs := by
  cases hz : a.zone with
  | none => simpa [Agent.zoneEffect, hz] using h
  | some z =>
    simpa [Agent.zoneEffect, hz] using zoneBoost_bounds z.type a.needs h

/-- Health stays in [0, 100] through `_health_check`: damage is followed by
the death clamp at 0, regeneration is capped at `MAX_HEALTH`. -/
theorem Agent.healthCheck_health_bounds (a : Agent) (h0 : 0 ≤ a.health)
    (h1 : a.health ≤ 100) :
    0 ≤ (a.healthCheck).health ∧ (a.healthCheck).health ≤ 100 := by
  unfold Agent.healthCheck
  split
  next hle => exact ⟨le_refl 0, by norm_num⟩
  next hgt =>
    push_neg at hgt
    refine ⟨le_of_lt hgt, ?_⟩
    show healthStep a.needs.critCount a.health ≤ 100
    unfold healthStep
    split
    next hcrit =>
      have hd : (0 : ℚ) ≤ 3 / 100 * (a.needs.critCount : ℚ) := by positivity
      linarith
    next hncrit =>
      exact le_trans (min_le_left _ _) (by unfold MAX_HEALTH; norm_num)

/-- Needs after a live tick are the needs after that tick's decay and zone
effect (health check, movement, zone re-detection and the wait counter do
not touch them). -/
theorem Agent.tick_needs (mv : MoveStep) (a : Agent) (h : a.alive = true) :
    (Agent.tick mv a).needs = ((a.decay).zoneEffect).needs := by
  unfold Agent.tick
  rw [if_neg (by simp [h])]
  split <;>
    simp only [Agent.tickBody, Agent.detectZone_needs, Agent.move_needs,
      Agent.healthCheck_needs]

/-- Health after a live tick is the health after that tick's health check. -/
theorem Agent.tick_health (mv : MoveStep) (a : Agent) (h : a.alive = true) :
    (Agent.tick mv a).health = (((a.decay).zoneEffect).healthCheck).health := by
  unfold Agent.tick
  rw [if_neg (by simp [h])]
  split <;>
    simp only [Agent.tickBody, Agent.detectZone_health, Agent.move_health]

/-- Alive flag after a live tick is the flag after the health check. -/
theorem Agent.tick_alive (mv : MoveStep) (a : Agent) (h : a.alive = true) :
    (Agent.tick mv a).alive = (((a.decay).zoneEffect).healthCheck).alive := by
  unfold Agent.tick
  rw [if_neg (by simp [h])]
  split <;>
    simp only [Agent.tickBody, Agent.detectZone_alive, Agent.move_alive]

/-- Death reason after a live tick is the reason after the health check. -/
theorem Agent.tick_death_reason (mv : MoveStep) (a : Agent) (h : a.alive = true) :
    (Agent.tick mv a).death_reason =
      (((a.decay).zoneEffect).healthCheck).death_reason := by
  unfold Agent.tick
  rw [if_neg (by simp [h])]
  split <;>
    simp only [Agent.tickBody, Agent.detectZone_death_reason,
      Agent.move_death_reason]

/-- C1: a tick from any state with needs in [0, 10] and health in [0, 100]
yields needs in [0, 10] and health in [0, 100], for every agent and every
movement displacement. -/
theorem tick_preserves_bounds (mv : MoveStep) (a : Agent)
    (hn : NeedsInBounds a.needs) (h0 : 0 ≤ a.health) (h1 : a.health ≤ 100) :
    NeedsInBounds (Agent.tick mv a).needs ∧
    0 ≤ (Agent.tick mv a).health ∧ (Agent.tick mv a).health ≤ 100 := by
  cases ha : a.alive with
  | false =>
    rw [Agent.tick_dead mv a ha]
    exact ⟨hn, h0, h1⟩
  | true =>
    rw [Agent.tick_needs mv a ha, Agent.tick_health mv a ha]
    refine ⟨Agent.zoneEffect_needs_bounds _ (Agent.decay_needs_bounds a hn), ?_⟩
    exact Agent.healthCheck_health_bounds ((a.decay).zoneEffect)
      (by rw [Agent.zoneEffect_health, Agent.decay_health]; exact h0)
      (by rw [Agent.zoneEffect_health, Agent.decay_health]; exact h1)

/-- A concrete live agent (home is the road-typed placeholder zone, needs
all 6, full health) used by witnesses. -/
def aW : Agent :=
  mkAgent "A" "Alice" (10, 132, 255) dummyZone (PathGraph.ofZones worldZones)
    worldZones n6

/-- Witness for C1 at the concrete live agent. -/
theorem tick_preserves_bounds_witness :
    NeedsInBounds (Agent.tick mvId aW).needs ∧
    0 ≤ (Agent.tick mvId aW).health ∧ (Agent.tick mvId aW).health ≤ 100 :=
  tick_preserves_bounds mvId aW
    (show NeedsInBounds ⟨6, 6, 6, 6⟩ by
      refine ⟨⟨?_, ?_⟩, ⟨?_, ?_⟩, ⟨?_, ?_⟩, ⟨?_, ?_⟩⟩ <;> norm_num)
    (show (0 : ℚ) ≤ 100 by norm_num)
    (show (100 : ℚ) ≤ 100 by norm_num)

/-- When the health check kills a live agent, the resulting record is the
death record: health clamped to 0, flag flipped, death reason from the
first-lowest need, path cleared — everything else untouched. -/
theorem Agent.healthCheck_death_eq (a : Agent) (ha : a.alive = true)
    (hd : (a.healthCheck).alive = false) :
    a.healthCheck =
      { a with health := 0, alive := false,
               death_reason := needName a.needs.worstKey, path := [] } := by
  unfold Agent.healthCheck at hd ⊢
  split at hd
  next h => rw [if_pos h]
  next h =>
    rw [if_neg h]
    exact absurd (ha ▸ hd) (by simp)

/-- `_move` does nothing when the path is empty. -/
theorem Agent.move_path_empty (mv : MoveStep) (a : Agent) (h : a.path = []) :
    a.move mv = a := by
  unfold Agent.move
  rw [if_pos (Or.inl h)]

/-- Path after a live tick in which the health check killed the agent:
the health check cleared it, and neither movement (no-op on an empty path)
nor zone re-detection restores it. -/
theorem Agent.tick_path_of_death (mv : MoveStep) (a : Agent)
    (ha : a.alive = true)
    (hd : (((a.decay).zoneEffect).healthCheck).alive = false) :
    (Agent.tick mv a).path = [] := by
  have hb : ((a.decay).zoneEffect).alive = true := by
    rw [Agent.zoneEffect_alive, Agent.decay_alive]; exact ha
  have hc := Agent.healthCheck_death_eq ((a.decay).zoneEffect) hb hd
  unfold Agent.tick
  rw [if_neg (by simp [ha])]
  have hpath : (((a.decay).zoneEffect).healthCheck).path = [] := by rw [hc]
  split <;>
    simp only [Agent.tickBody, Agent.detectZone_path,
      Agent.move_path_empty mv _ hpath, hpath]

/-- C2: when the health check of a live agent's tick drives health to zero,
the tick flips `alive` to false, clamps health to 0, clears the path, and
records as death reason the display name of the need that is lowest after
that tick's decay and zone effect (ties to the first need in dict order,
via `Needs.worstKey`); the transition is permanent — further ticks and any
`assign` leave the dead agent unchanged, so the flag flips exactly once. -/
theorem death_transition_spec (mv : MoveStep) (a : Agent)
    (ha : a.alive = true)
    (hd : (((a.decay).zoneEffect).healthCheck).alive = false) :
    (Agent.tick mv a).alive = false ∧
    (Agent.tick mv a).health = 0 ∧
    (Agent.tick mv a).path = [] ∧
    (Agent.tick mv a).death_reason =
      needName ((a.decay).zoneEffect).needs.worstKey ∧
    (∀ mv2 : MoveStep, Agent.tick mv2 (Agent.tick mv a) = Agent.tick mv a) ∧
    (∀ (g : Goal) (z : Option Zone),
      Agent.assign (Agent.tick mv a) g z = Agent.tick mv a) := by
  have hb : ((a.decay).zoneEffect).alive = true := by
    rw [Agent.zoneEffect_alive, Agent.decay_alive]; exact ha
  have hc := Agent.healthCheck_death_eq ((a.decay).zoneEffect) hb hd
  have halive : (Agent.tick mv a).alive = false := by
    rw [Agent.tick_alive mv a ha]; exact hd
  refine ⟨halive, ?_, Agent.tick_path_of_death mv a ha hd, ?_, ?_, ?_⟩
  · rw [Agent.tick_health mv a ha, hc]
  · rw [Agent.tick_death_reason mv a ha, hc]
  · exact fun mv2 => Agent.tick_dead mv2 _ halive
  · exact fun g z => Agent.assign_dead _ g z halive

/-- A concrete agent one tick from death: all needs critical, tiny health. -/
def aDying : Agent := { aW with needs := ⟨1, 1, 1, 1⟩, health := 1/10 }

/-- Needs of the dying witness agent after decay and zone effect (its zone
is road-typed, so only decay acts). -/
theorem aDying_needs_eval :
    ((aDying.decay).zoneEffect).needs =
      ⟨994/1000, 994/1000, 994/1000, 994/1000⟩ := by
  simp only [aDying, aW, mkAgent, dummyZone, Agent.decay, Agent.zoneEffect,
    zoneBoost, NEED_DECAY]
  norm_num [max_def]

/-- Witness for C2: the dying agent dies this tick, health 0, path cleared,
death reason the display name of the first-lowest need (hunger). -/
theorem death_transition_spec_witness :
    (Agent.tick mvId aDying).alive = false ∧
    (Agent.tick mvId aDying).health = 0 ∧
    (Agent.tick mvId aDying).path = [] ∧
    (Agent.tick mvId aDying).death_reason = "Голод" := by
  have hd : (((aDying.decay).zoneEffect).healthCheck).alive = false := by
    unfold Agent.healthCheck
    rw [if_pos]
    have hh : ((aDying.decay).zoneEffect).health = 1/10 := by
      rw [Agent.zoneEffect_health, Agent.decay_health]
      rfl
    rw [aDying_needs_eval, hh]
    norm_num [healthStep, Needs.critCount, CRITICAL]
  have h := death_transition_spec mvId aDying rfl hd
  refine ⟨h.1, h.2.1, h.2.2.1, ?_⟩
  rw [h.2.2.2.1, aDying_needs_eval]
  norm_num [Needs.worstKey, minKeyAux, needName]

/-- Iterated ticks (`tickN mv a n` is the agent after `n` world ticks). -/
def tickN (mv : MoveStep) (a : Agent) : ℕ → Agent
  | 0 => a
  | n + 1 => Agent.tick mv (tickN mv a n)

/-- All four needs at or above the critical threshold. -/
def NeedsOK (n : Needs) : Prop :=
  CRITICAL ≤ n.hunger ∧ CRITICAL ≤ n.energy ∧
  CRITICAL ≤ n.social ∧ CRITICAL ≤ n.work

/-- No need is counted critical when all are at or above the threshold. -/
theorem critCount_zero (n : Needs) (h : NeedsOK n) : n.critCount = 0 := by
  obtain ⟨h1, h2, h3, h4⟩ := h
  unfold Needs.critCount
  rw [if_neg (not_lt.2 h1), if_neg (not_lt.2 h2), if_neg (not_lt.2 h3),
    if_neg (not_lt.2 h4)]

/-- A live agent whose needs are all non-critical at the health check
survives its tick and regenerates: health becomes
`min MAX_HEALTH (health + 1/100)`. -/
theorem Agent.healthy_tick (mv : MoveStep) (a : Agent) (ha : a.alive = true)
    (hh0 : 0 < a.health)
    (hok : NeedsOK ((a.decay).zoneEffect).needs) :
    (Agent.tick mv a).alive = true ∧
    (Agent.tick mv a).health = min MAX_HEALTH (a.health + 1/100) := by
  have hcrit := critCount_zero _ hok
  have hstep :
      healthStep ((a.decay).zoneEffect).needs.critCount
        ((a.decay).zoneEffect).health = min MAX_HEALTH (a.health + 1/100) := by
    rw [hcrit, Agent.zoneEffect_health, Agent.decay_health]
    unfold healthStep
    rw [if_neg (lt_irrefl 0)]
  have hpos : 0 < min MAX_HEALTH (a.health + 1/100) :=
    lt_min (by unfold MAX_HEALTH; norm_num) (by linarith)
  have hcheck : ((a.decay).zoneEffect).healthCheck =
      { (a.decay).zoneEffect with health := min MAX_HEALTH (a.health + 1/100) } := by
    unfold Agent.healthCheck
    rw [hstep, if_neg (not_le.2 hpos)]
  constructor
  · rw [Agent.tick_alive mv a ha, hcheck]
    show ((a.decay).zoneEffect).alive = true
    rw [Agent.zoneEffect_alive, Agent.decay_alive]
    exact ha
  · rw [Agent.tick_health mv a ha, hcheck]

/-- C8: an agent whose needs are all at or above the critical threshold at
every health check never dies, its health never decreases, and it follows
the capped regeneration law `health_n = min MAX_HEALTH (health_0 + n/100)`
(strictly increasing by 1/100 per tick until the cap). -/
theorem healthy_agent_thrives (mv : MoveStep) (a : Agent) (n : ℕ)
    (ha : a.alive = true) (h0 : 0 < a.health) (h1 : a.health ≤ 100)
    (hok : ∀ i, i < n → NeedsOK (((tickN mv a i).decay).zoneEffect).needs) :
    (tickN mv a n).alive = true ∧
    (tickN mv a n).health = min MAX_HEALTH (a.health + (n : ℚ) / 100) ∧
    a.health ≤ (tickN mv a n).health := by
  induction n with
  | zero =>
    refine ⟨ha, ?_, le_refl _⟩
    show a.health = _
    rw [Nat.cast_zero]
    rw [show a.health + 0 / 100 = a.health by ring]
    rw [min_eq_right (by unfold MAX_HEALTH; linarith)]
  | succ n ih =>
    obtain ⟨iha, ihh, ihge⟩ :=
      ih (fun i hi => hok i (Nat.lt_trans hi (Nat.lt_succ_self n)))
    have h0n : 0 < (tickN mv a n).health := by
      rw [ihh]
      refine lt_min (by unfold MAX_HEALTH; norm_num) ?_
      have : (0 : ℚ) ≤ (n : ℚ) / 100 := by positivity
      linarith
    have ht := Agent.healthy_tick mv (tickN mv a n) iha h0n
      (hok n (Nat.lt_succ_self n))
    have hstep : tickN mv a (n + 1) = Agent.tick mv (tickN mv a n) := rfl
    refine ⟨hstep ▸ ht.1, ?_, ?_⟩
    · rw [hstep, ht.2, ihh]
      rcases le_total (a.health + (n : ℚ) / 100) MAX_HEALTH with hle | hge
      · rw [min_eq_right hle]
        congr 1
        push_cast
        ring
      · rw [min_eq_left hge,
          min_eq_left (show MAX_HEALTH ≤ MAX_HEALTH + 1/100 by norm_num),
          min_eq_left (by push_cast; linarith)]
    · rw [hstep, ht.2, ihh]
      refine le_min (by unfold MAX_HEALTH; linarith) ?_
      have hmin : a.health ≤ min MAX_HEALTH (a.health + (n : ℚ) / 100) := by
        refine le_min (by unfold MAX_HEALTH; linarith) ?_
        have : (0 : ℚ) ≤ (n : ℚ) / 100 := by positivity
        linarith
      linarith

/-- Witness for C8 at the concrete live agent, one tick. -/
theorem healthy_agent_thrives_witness :
    (tickN mvId aW 1).alive = true ∧
    (tickN mvId aW 1).health = min MAX_HEALTH (aW.health + (1 : ℚ) / 100) ∧
    aW.health ≤ (tickN mvId aW 1).health := by
  refine healthy_agent_thrives mvId aW 1 rfl
    (show (0 : ℚ) < 100 by norm_num)
    (show (100 : ℚ) ≤ 100 by norm_num)
    (fun i hi => ?_)
  interval_cases i
  show NeedsOK ((aW.decay).zoneEffect).needs
  have : ((aW.decay).zoneEffect).needs =
      ⟨5994/1000, 5994/1000, 5994/1000, 5994/1000⟩ := by
    simp only [aW, n6, mkAgent, dummyZone, Agent.decay, Agent.zoneEffect,
      zoneBoost, NEED_DECAY]
    norm_num [max_def]
  rw [this]
  refine ⟨?_, ?_, ?_, ?_⟩ <;> norm_num [CRITICAL]

/-- C10: when a live agent reaches the final waypoint of its path (the snap
test holds at the last cursor position), `_move` clears the path, resets
the goal to `IDLE` and the wait counter to 0, but does **not** reset the
`target` field — it still holds whatever zone was being pursued, so an idle
agent can expose a non-null target; only a later `assign` (for example an
`IDLE` assignment, final conjunct) overwrites or clears it. -/
theorem path_end_keeps_target (mv : MoveStep) (a : Agent)
    (ha : a.alive = true) (hne : a.path ≠ [])
    (hlast : a.path_i = a.path.length - 1)
    (hnear : sqNear a.pos (a.path.getD a.path_i (0, 0)) = true) :
    (a.move mv).path = [] ∧
    (a.move mv).goal = Goal.IDLE ∧
    (a.move mv).wait = 0 ∧
    (a.move mv).target = a.target ∧
    (Agent.assign (a.move mv) Goal.IDLE none).target = none := by
  have hlen : 0 < a.path.length := List.length_pos.2 hne
  have hmove : a.move mv =
      { a with pos := (((a.path.getD a.path_i (0, 0)).1 : ℚ),
                       ((a.path.getD a.path_i (0, 0)).2 : ℚ)),
               path_i := a.path_i + 1, path := [], goal := Goal.IDLE,
               wait := 0 } := by
    unfold Agent.move
    rw [if_neg (not_or.2 ⟨hne, by omega⟩), if_pos hnear,
      if_pos (show a.path.length ≤ a.path_i + 1 by omega)]
  rw [hmove]
  refine ⟨rfl, rfl, rfl, rfl, ?_⟩
  unfold Agent.assign
  rw [if_neg (by simp [ha]), if_pos rfl]

/-- A concrete agent about to arrive: singleton path at its position, with
the cafe zone as its pursued target. -/
def aArrive : Agent :=
  { aW with pos := (115, 135), path := [(115, 135)], path_i := 0,
            goal := Goal.GO_CAFE,
            target := some (Zone.mk "cafe" .CAFE ⟨400, 70, 170, 150⟩ (75, 55, 45)) }

/-- Witness for C10: the arriving agent goes idle with its path cleared but
still exposes the cafe target. -/
theorem path_end_keeps_target_witness :
    (aArrive.move mvId).path = [] ∧
    (aArrive.move mvId).goal = Goal.IDLE ∧
    (aArrive.move mvId).wait = 0 ∧
    (aArrive.move mvId).target = aArrive.target ∧
    (Agent.assign (aArrive.move mvId) Goal.IDLE none).target = none := by
  refine path_end_keeps_target mvId aArrive rfl (by simp [aArrive]) rfl ?_
  rw [show sqNear aArrive.pos (aArrive.path.getD aArrive.path_i (0, 0)) =
        sqNear (115, 135) ((115 : Int), (135 : Int)) from rfl]
  rw [sqNear, decide_eq_true_eq]
  push_cast
  norm_num [MOVE_SPEED]

/-- A key is found exactly when it occurs among the stored keys. -/
theorem lookup_isSome_iff {α : Type} (l : List (String × α)) (k : String) :
    (l.lookup k).isSome ↔ k ∈ l.map Prod.fst := by
  induction l with
  | nil => simp [List.lookup]
  | cons hd tl ih =>
    rw [List.map_cons, List.mem_cons]
    by_cases h : k = hd.1
    · simp [List.lookup, h]
    · have hb : (k == hd.1) = false := by simp [h]
      simp only [List.lookup, hb, cond_false, h, false_or]
      exact ih

/-- A looked-up value is stored in the list. -/
theorem mem_of_lookup_eq_some {α : Type} {l : List (String × α)} {k : String}
    {v : α} (h : l.lookup k = some v) : (k, v) ∈ l := by
  induction l with
  | nil => simp [List.lookup] at h
  | cons hd tl ih =>
    by_cases hk : k = hd.1
    · subst hk
      simp only [List.lookup, beq_self_eq_true, cond_true] at h
      injection h with h2
      subst h2
      rw [Prod.mk.eta]
      exact List.mem_cons_self hd tl
    · simp only [List.lookup, beq_eq_false_iff_ne.2 hk, cond_false] at h
      exact List.mem_cons_of_mem hd (ih h)

/-- `adjAppend` keeps the key sequence unchanged. -/
theorem map_fst_adjAppend (adj : List (String × List String)) (k v : String) :
    (adjAppend adj k v).map Prod.fst = adj.map Prod.fst := by
  unfold adjAppend
  rw [List.map_map]
  apply List.map_congr_left
  intro kv _
  by_cases h : kv.1 = k
  · by_cases h2 : v ∈ kv.2 <;> simp [h, h2]
  · simp [h]

/-- Lookup through `adjAppend`: only the targeted key's value changes. -/
theorem lookup_adjAppend (adj : List (String × List String)) (k v n : String) :
    (adjAppend adj k v).lookup n =
      if n = k then (adj.lookup n).map (fun l => if v ∈ l then l else l ++ [v])
      else adj.lookup n := by
  induction adj with
  | nil => unfold adjAppend; split <;> simp [List.lookup]
  | cons hd tl ih =>
    show List.lookup n
        ((if hd.1 = k then (if v ∈ hd.2 then hd else (hd.1, hd.2 ++ [v]))
          else hd) :: adjAppend tl k v) = _
    by_cases hn : n = hd.1
    · subst hn
      by_cases hhd : hd.1 = k
      · rw [if_pos hhd]
        by_cases hv : v ∈ hd.2
        · rw [if_pos hv]
          simp [List.lookup, hhd, hv]
        · rw [if_neg hv]
          simp [List.lookup, hhd, hv]
      · rw [if_neg hhd]
        simp [List.lookup, hhd]
    · have hb : (n == hd.1) = false := by simp [hn]
      by_cases hhd : hd.1 = k
      · rw [if_pos hhd]
        have hnk : ¬n = k := fun hc => hn (hc.trans hhd.symm)
        by_cases hv : v ∈ hd.2
        · rw [if_pos hv]
          simp only [List.lookup, hb, cond_false]
          rw [ih, if_neg hnk]
        · rw [if_neg hv]
          simp only [List.lookup, hb, cond_false]
          rw [ih, if_neg hnk]
      · rw [if_neg hhd]
        simp only [List.lookup, hb, cond_false]
        exact ih

/-- `adjAppend` preserves which keys are present. -/
theorem lookup_isSome_adjAppend (adj : List (String × List String))
    (k v n : String) :
    ((adjAppend adj k v).lookup n).isSome = (adj.lookup n).isSome := by
  rw [lookup_adjAppend]
  split <;> simp

/-- Membership in an adjacency list after `adjAppend`. -/
theorem mem_adjGet_adjAppend (adj : List (String × List String))
    (k v n x : String) :
    x ∈ adjGet (adjAppend adj k v) n ↔
      x ∈ adjGet adj n ∨ (n = k ∧ (adj.lookup k).isSome ∧ x = v) := by
  unfold adjGet
  rw [lookup_adjAppend]
  by_cases hn : n = k
  · subst hn
    cases h : adj.lookup n with
    | none => simp [h]
    | some l =>
      by_cases hv : v ∈ l
      · simp [h, hv]
        exact fun he => he ▸ hv
      · simp [h, hv]
  · simp [hn]

/-- Symmetry of an adjacency structure: A lists B iff B lists A. -/
def SymAdj (adj : List (String × List String)) : Prop :=
  ∀ x y : String, x ∈ adjGet adj y ↔ y ∈ adjGet adj x

/-- The paired insertion of `PathGraph.__init__` — `nb` into `a`'s list,
then `a` into `nb`'s list — preserves symmetry when both keys exist. -/
theorem symAdj_pairIns (adj : List (String × List String)) (a nb : String)
    (hsym : SymAdj adj) (hka : (adj.lookup a).isSome)
    (hkb : (adj.lookup nb).isSome) :
    SymAdj (adjAppend (adjAppend adj a nb) nb a) := by
  intro x y
  simp only [mem_adjGet_adjAppend, lookup_isSome_adjAppend]
  have h := hsym x y
  constructor
  · rintro ((hx | ⟨rfl, _, rfl⟩) | ⟨rfl, _, rfl⟩)
    · exact Or.inl (Or.inl (h.1 hx))
    · exact Or.inr ⟨rfl, hkb, rfl⟩
    · exact Or.inl (Or.inr ⟨rfl, hka, rfl⟩)
  · rintro ((hx | ⟨rfl, _, rfl⟩) | ⟨rfl, _, rfl⟩)
    · exact Or.inl (Or.inl (h.2 hx))
    · exact Or.inr ⟨rfl, hkb, rfl⟩
    · exact Or.inl (Or.inr ⟨rfl, hka, rfl⟩)

/-- Membership in any adjacency list is preserved by further insertions. -/
theorem mem_adjGet_mono (adj : List (String × List String)) (k v n x : String)
    (h : x ∈ adjGet adj n) : x ∈ adjGet (adjAppend adj k v) n :=
  (mem_adjGet_adjAppend adj k v n x).2 (Or.inl h)

/-- An adjacency structure whose every stored list is empty is symmetric. -/
theorem symAdj_of_all_nil (adj : List (String × List String))
    (h : ∀ kv ∈ adj, kv.2 = ([] : List String)) : SymAdj adj := by
  intro x y
  have hempty : ∀ n : String, adjGet adj n = [] := by
    intro n
    unfold adjGet
    cases hl : adj.lookup n with
    | none => rfl
    | some l => exact h _ (mem_of_lookup_eq_some hl)
  rw [hempty, hempty]
  simp

/-- `dictSet` keeps the key sequence, appending the key when fresh. -/
theorem map_fst_dictSet {α : Type} (l : List (String × α)) (k : String) (v : α) :
    (dictSet l k v).map Prod.fst =
      if (l.lookup k).isSome then l.map Prod.fst else l.map Prod.fst ++ [k] := by
  unfold dictSet
  split
  · rw [List.map_map]
    apply List.map_congr_left
    intro kv _
    by_cases h : kv.1 = k <;> simp [h]
  · simp

/-- Both `__init__` dicts travel through identical key sequences. -/
theorem initMaps_keys_eq (zones : List Zone) :
    (initMaps zones).1.map Prod.fst = (initMaps zones).2.map Prod.fst := by
  unfold initMaps
  suffices h : ∀ (m : List (String × (Int × Int)) × List (String × List String)),
      m.1.map Prod.fst = m.2.map Prod.fst →
      (zones.foldl
        (fun m z => (dictSet m.1 z.name z.center, dictSet m.2 z.name [])) m).1.map
          Prod.fst =
      (zones.foldl
        (fun m z => (dictSet m.1 z.name z.center, dictSet m.2 z.name [])) m).2.map
          Prod.fst by
    exact h ([], []) rfl
  induction zones with
  | nil => exact fun m hm => hm
  | cons z zs ih =>
    intro m hm
    apply ih
    rw [map_fst_dictSet, map_fst_dictSet, hm]
    have : ((m.1.lookup z.name).isSome : Prop) ↔ (m.2.lookup z.name).isSome := by
      rw [lookup_isSome_iff, lookup_isSome_iff, hm]
    by_cases hs : (m.2.lookup z.name).isSome
    · rw [if_pos (this.2 hs), if_pos hs]
    · rw [if_neg (fun hh => hs (this.1 hh)), if_neg hs]

/-- Every stored list of the initial adjacency dict is empty. -/
theorem initMaps_adj_nil (zones : List Zone) :
    ∀ kv ∈ (initMaps zones).2, kv.2 = ([] : List String) := by
  unfold initMaps
  suffices h : ∀ (m : List (String × (Int × Int)) × List (String × List String)),
      (∀ kv ∈ m.2, kv.2 = ([] : List String)) →
      ∀ kv ∈ (zones.foldl
        (fun m z => (dictSet m.1 z.name z.center, dictSet m.2 z.name [])) m).2,
        kv.2 = ([] : List String) by
    exact h ([], []) (by simp)
  induction zones with
  | nil => exact fun m hm => hm
  | cons z zs ih =>
    intro m hm
    apply ih
    intro kv hkv
    dsimp only at hkv
    unfold dictSet at hkv
    split at hkv
    · obtain ⟨kv0, hkv0, hkveq⟩ := List.mem_map.1 hkv
      by_cases h : kv0.1 = z.name
      · rw [if_pos h] at hkveq
        rw [← hkveq]
      · rw [if_neg h] at hkveq
        exact hkveq ▸ hm kv0 hkv0
    · rcases List.mem_append.1 hkv with hin | hin
      · exact hm kv hin
      · rw [List.mem_singleton.1 hin]

/-- A property preserved by every step of a fold holds at its end. -/
theorem foldl_pres {α β : Type} (step : β → α → β) (C : β → Prop) :
    ∀ (l : List α) (acc : β), C acc →
      (∀ (b : β) (x : α), x ∈ l → C b → C (step b x)) →
      C (l.foldl step acc) := by
  intro l
  induction l with
  | nil => exact fun acc hc _ => hc
  | cons y ys ih =>
    intro acc hc hstep
    exact ih (step acc y) (hstep acc y (List.mem_cons_self y ys) hc)
      (fun b x hx => hstep b x (List.mem_cons_of_mem y hx))

/-- A property established at one fold element and preserved afterwards
holds at the end of the fold (with an auxiliary invariant carried to the
establishing step). -/
theorem foldl_estab {α β : Type} (step : β → α → β) (Inv C : β → Prop)
    (l : List α) (x : α) (init : β) (hx : x ∈ l) (hInv : Inv init)
    (hpres : ∀ (b : β) (y : α), y ∈ l → Inv b → Inv (step b y))
    (hestab : ∀ b : β, Inv b → C (step b x))
    (hmono : ∀ (b : β) (y : α), y ∈ l → C b → C (step b y)) :
    C (l.foldl step init) := by
  induction l generalizing init with
  | nil => cases hx
  | cons y ys ih =>
    by_cases hxy : x = y
    · subst hxy
      exact foldl_pres step C ys (step init x) (hestab init hInv)
        (fun b z hz => hmono b z (List.mem_cons_of_mem x hz))
    · have hx2 : x ∈ ys := by
        cases List.mem_cons.1 hx with
        | inl h => exact absurd h hxy
        | inr h => exact h
      exact ih (step init y) hx2 (hpres init y (List.mem_cons_self y ys) hInv)
        (fun b z hz => hpres b z (List.mem_cons_of_mem y hz))
        (fun b z hz => hmono b z (List.mem_cons_of_mem y hz))

/-- Insertion keeps exactly the members. -/
theorem mem_insSorted {α : Type} (le : α → α → Bool) (x y : α) (l : List α) :
    y ∈ insSorted le x l ↔ y = x ∨ y ∈ l := by
  induction l with
  | nil => simp [insSorted]
  | cons hd tl ih =>
    unfold insSorted
    split
    · simp
    · simp only [List.mem_cons, ih]
      tauto

/-- Sorting keeps exactly the members. -/
theorem mem_insSort {α : Type} (le : α → α → Bool) (x : α) (l : List α) :
    x ∈ insSort le l ↔ x ∈ l := by
  induction l with
  | nil => simp [insSort]
  | cons hd tl ih =>
    unfold insSort
    rw [mem_insSorted]
    simp [ih]

/-- Every candidate produced for zone `a` names another stored zone. -/
theorem sortedDists_mem_names (pos : List (String × (Int × Int)))
    (names : List String) (a : String) (p : Int × String)
    (hp : p ∈ sortedDists pos names a) : p.2 ∈ names := by
  unfold sortedDists at hp
  rw [mem_insSort] at hp
  obtain ⟨b, hb, rfl⟩ := List.mem_map.1 hp
  exact List.mem_of_mem_filter hb

/-- The composite invariant carried through `buildAdj`: the key sequence is
the name list, and the structure is symmetric. -/
def AdjInv (names : List String) (adj : List (String × List String)) : Prop :=
  adj.map Prod.fst = names ∧ SymAdj adj

/-- The paired insertion keeps the invariant when both ends are names. -/
theorem adjInv_pairIns (names : List String) (adj : List (String × List String))
    (a nb : String) (hInv : AdjInv names adj) (ha : a ∈ names)
    (hnb : nb ∈ names) :
    AdjInv names (adjAppend (adjAppend adj a nb) nb a) := by
  obtain ⟨hkeys, hsym⟩ := hInv
  refine ⟨by rw [map_fst_adjAppend, map_fst_adjAppend, hkeys], ?_⟩
  refine symAdj_pairIns adj a nb hsym ?_ ?_
  · rw [lookup_isSome_iff, hkeys]; exact ha
  · rw [lookup_isSome_iff, hkeys]; exact hnb

/-- One `buildStep` keeps the composite invariant. -/
theorem buildStep_inv (pos : List (String × (Int × Int))) (names : List String)
    (adj : List (String × List String)) (a : String) (ha : a ∈ names)
    (h : AdjInv names adj) : AdjInv names (buildStep pos names adj a) := by
  unfold buildStep
  refine foldl_pres _ (AdjInv names) _ adj h ?_
  intro b p hp hb
  exact adjInv_pairIns names b a p.2 hb ha
    (sortedDists_mem_names pos names a p (List.take_subset 4 _ hp))

/-- One `buildStep` never removes an adjacency membership. -/
theorem buildStep_mono (pos : List (String × (Int × Int))) (names : List String)
    (adj : List (String × List String)) (y nn x : String)
    (h : x ∈ adjGet adj nn) : x ∈ adjGet (buildStep pos names adj y) nn := by
  unfold buildStep
  refine foldl_pres _ (fun b => x ∈ adjGet b nn) _ adj h ?_
  intro b p _ hb
  exact mem_adjGet_mono _ p.2 y nn x (mem_adjGet_mono b y p.2 nn x hb)

/-- After its own `buildStep`, a zone's list contains each of its (up to)
four nearest candidates. -/
theorem buildStep_estab (pos : List (String × (Int × Int)))
    (names : List String) (adj : List (String × List String)) (a : String)
    (ha : a ∈ names) (hInv : AdjInv names adj) :
    ∀ p ∈ (sortedDists pos names a).take 4,
      p.2 ∈ adjGet (buildStep pos names adj a) a := by
  intro p hp
  unfold buildStep
  refine foldl_estab _ (AdjInv names) (fun b => p.2 ∈ adjGet b a) _ p adj hp
    hInv ?_ ?_ ?_
  · intro b q hq hb
    exact adjInv_pairIns names b a q.2 hb ha
      (sortedDists_mem_names pos names a q (List.take_subset 4 _ hq))
  · intro b hb
    have hsome : (b.lookup a).isSome := by
      rw [lookup_isSome_iff, hb.1]
      exact ha
    exact mem_adjGet_mono (adjAppend b a p.2) p.2 a a p.2
      ((mem_adjGet_adjAppend b a p.2 a p.2).2 (Or.inr ⟨rfl, hsome, rfl⟩))
  · intro b q _ hb
    exact mem_adjGet_mono _ q.2 a a p.2 (mem_adjGet_mono b a q.2 a p.2 hb)

/-- C4 (amended): for every zone set, the built adjacency maps each stored
zone name to a list that *contains* its (up to) four geometrically nearest
other zones — the list can exceed four entries because the paired
insertions also add back-links — and the structure is symmetric: A lists B
iff B lists A. -/
theorem adjacency_nearest_symmetric (zones : List Zone) :
    SymAdj (PathGraph.ofZones zones).adj ∧
    ∀ a ∈ (PathGraph.ofZones zones).pos.map Prod.fst,
      ∀ p ∈ (sortedDists (PathGraph.ofZones zones).pos
              ((PathGraph.ofZones zones).pos.map Prod.fst) a).take 4,
        p.2 ∈ adjGet (PathGraph.ofZones zones).adj a := by
  have hpos : (PathGraph.ofZones zones).pos = (initMaps zones).1 := rfl
  have hadj : (PathGraph.ofZones zones).adj =
      buildAdj (initMaps zones).1 (initMaps zones).2 := rfl
  rw [hpos, hadj]
  set pos := (initMaps zones).1
  set adj0 := (initMaps zones).2
  set names := pos.map Prod.fst with hnames
  have hInv0 : AdjInv names adj0 :=
    ⟨(initMaps_keys_eq zones).symm, symAdj_of_all_nil _ (initMaps_adj_nil zones)⟩
  have hbuild : buildAdj pos adj0 = names.foldl (buildStep pos names) adj0 := rfl
  rw [hbuild]
  constructor
  · exact (foldl_pres (buildStep pos names) (AdjInv names) names adj0 hInv0
      (fun b x hx hb => buildStep_inv pos names b x hx hb)).2
  · intro a ha p hp
    exact foldl_estab (buildStep pos names) (AdjInv names)
      (fun b => p.2 ∈ adjGet b a) names a adj0 ha hInv0
      (fun b y hy hb => buildStep_inv pos names b y hy hb)
      (fun b hb => buildStep_estab pos names b a ha hb p hp)
      (fun b y _ hb => buildStep_mono pos names b y a p.2 hb)

/-- C4 counterexample: in the graph built from the program's own zone set,
the `road` zone ends up with six neighbours, so the claimed "at most 4
neighbor zone names" bound is false (the symmetrisation back-links push
lists past four). -/
theorem adjacency_four_neighbor_cex :
    (adjGet (PathGraph.ofZones worldZones).adj "road").length = 6 ∧
    ¬ (adjGet (PathGraph.ofZones worldZones).adj "road").length ≤ 4 := by
  decide

/-- Witness for amended C4 on the concrete zone set: symmetry between two
concrete zones, and the cafe's four nearest candidates are all listed. -/
theorem adjacency_nearest_symmetric_witness :
    ("road" ∈ adjGet (PathGraph.ofZones worldZones).adj "home_a" ↔
      "home_a" ∈ adjGet (PathGraph.ofZones worldZones).adj "road") ∧
    ∀ p ∈ (sortedDists (PathGraph.ofZones worldZones).pos
            ((PathGraph.ofZones worldZones).pos.map Prod.fst) "cafe").take 4,
      p.2 ∈ adjGet (PathGraph.ofZones worldZones).adj "cafe" := by
  have h := adjacency_nearest_symmetric worldZones
  exact ⟨h.1 "road" "home_a", h.2 "cafe" (by decide)⟩

/-- The first element surviving `dropWhile` fails the predicate. -/
theorem dropWhile_head_false {p : Char → Bool} :
    ∀ {l : List Char} {x : Char} {xs : List Char},
      l.dropWhile p = x :: xs → p x = false := by
  intro l
  induction l with
  | nil => intro x xs h; simp at h
  | cons hd tl ih =>
    intro x xs h
    rw [List.dropWhile_cons] at h
    split at h
    · exact ih h
    · cases h
      simp_all

/-- `dropWhile` jumps over a block of satisfying elements. -/
theorem dropWhile_append_all {p : Char → Bool} :
    ∀ {pre l : List Char}, (∀ c ∈ pre, p c = true) →
      (pre ++ l).dropWhile p = l.dropWhile p := by
  intro pre
  induction pre with
  | nil => intro l _; rfl
  | cons hd tl ih =>
    intro l hpre
    rw [List.cons_append, List.dropWhile_cons,
      if_pos (by exact hpre hd (List.mem_cons_self hd tl))]
    exact ih (fun c hc => hpre c (List.mem_cons_of_mem hd hc))

/-- `dropWhile` stops at a failing head. -/
theorem dropWhile_cons_false {p : Char → Bool} {x : Char} {xs : List Char}
    (h : p x = false) : (x :: xs).dropWhile p = x :: xs := by
  rw [List.dropWhile_cons, if_neg (by simp [h])]

/-- Splitting a list at the last element failing `q` (from the right):
reverse, split with takeWhile/dropWhile, reverse back. -/
theorem rev_split (l : List Char) (q : Char → Bool) :
    l = (l.reverse.dropWhile q).reverse ++ (l.reverse.takeWhile q).reverse := by
  calc l = l.reverse.reverse := (List.reverse_reverse l).symm
    _ = ((l.reverse.takeWhile q) ++ (l.reverse.dropWhile q)).reverse := by
        rw [List.takeWhile_append_dropWhile]
    _ = (l.reverse.dropWhile q).reverse ++ (l.reverse.takeWhile q).reverse := by
        rw [List.reverse_append]

/-- Characterisation of the greedy brace-span extraction: a span is
returned exactly when the text splits as `pre ++ span ++ post` with no
opening brace in `pre`, no closing brace in `post`, and the span of the
form `{ … }` — i.e. the span runs from the text's first opening brace to
its last closing brace. -/
theorem extractBraces_some_iff (t s : String) :
    extractBraces t = some s ↔
      ∃ pre mid post : List Char,
        t.data = pre ++ s.data ++ post ∧ lbrace ∉ pre ∧ rbrace ∉ post ∧
        s.data = lbrace :: mid ++ [rbrace] := by
  obtain ⟨d⟩ := s
  show extractBraces t = some (String.mk d) ↔ _
  constructor
  · intro h
    unfold extractBraces at h
    split at h
    · cases h
    next h2 =>
      injection h with h3
      have hd : d =
          ((t.data.dropWhile fun c => !decide (c = lbrace)).reverse.dropWhile
            fun c => !decide (c = rbrace)).reverse := by
        have := congrArg String.data h3
        exact this.symm
      obtain ⟨y, ys, hyy⟩ :
          ∃ y ys, (t.data.dropWhile fun c => !decide (c = lbrace)).reverse.dropWhile
            (fun c => !decide (c = rbrace)) = y :: ys := by
        cases hc : (t.data.dropWhile fun c => !decide (c = lbrace)).reverse.dropWhile
            (fun c => !decide (c = rbrace)) with
        | nil => rw [hc] at h2; simp at h2
        | cons y ys => exact ⟨y, ys, rfl⟩
      have hy : y = rbrace := by
        have := dropWhile_head_false hyy
        simpa using this
      have hdval : d = ys.reverse ++ [rbrace] := by
        rw [hd, hyy, hy]
        simp
      have hsplit2 : (t.data.dropWhile fun c => !decide (c = lbrace)) =
          d ++ ((t.data.dropWhile fun c => !decide (c = lbrace)).reverse.takeWhile
            fun c => !decide (c = rbrace)).reverse := by
        have := rev_split (t.data.dropWhile fun c => !decide (c = lbrace))
          (fun c => !decide (c = rbrace))
        rw [← hd] at this
        exact this
      obtain ⟨x, xs, hxx⟩ :
          ∃ x xs, (t.data.dropWhile fun c => !decide (c = lbrace)) = x :: xs := by
        cases hc : t.data.dropWhile fun c => !decide (c = lbrace) with
        | nil =>
          rw [hc] at hsplit2
          have : d = [] := by
            cases hdd : d with
            | nil => rfl
            | cons a as => rw [hdd] at hsplit2; simp at hsplit2
          rw [this] at hdval
          simp at hdval
        | cons x xs => exact ⟨x, xs, rfl⟩
      have hx : x = lbrace := by
        have := dropWhile_head_false hxx
        simpa using this
      obtain ⟨a, as, haa⟩ : ∃ a as, d = a :: as := by
        cases hdd : d with
        | nil => rw [hdd] at hdval; simp at hdval
        | cons a as => exact ⟨a, as, rfl⟩
      have hax : a = lbrace := by
        rw [hxx, haa] at hsplit2
        rw [List.cons_append] at hsplit2
        injection hsplit2 with h4 _
        rw [← h4, hx]
      obtain ⟨mid, hmid⟩ : ∃ mid, d = lbrace :: mid ++ [rbrace] := by
        cases hys : ys.reverse with
        | nil =>
          rw [hys] at hdval
          rw [haa] at hdval
          simp at hdval
          rw [hdval.1] at hax
          exact absurd hax (by decide)
        | cons b bs =>
          refine ⟨bs, ?_⟩
          rw [hys, List.cons_append] at hdval
          have hab : a = b := by
            rw [haa] at hdval
            injection hdval with h5 _
          rw [hdval, ← hab, hax, List.cons_append]
      refine ⟨t.data.takeWhile fun c => !decide (c = lbrace), mid,
        ((t.data.dropWhile fun c => !decide (c = lbrace)).reverse.takeWhile
          fun c => !decide (c = rbrace)).reverse, ?_, ?_, ?_, hmid⟩
      · show t.data = _
        conv_lhs => rw [← List.takeWhile_append_dropWhile
          (p := fun c => !decide (c = lbrace)) (l := t.data)]
        rw [List.append_assoc, ← hsplit2]
      · intro hc
        have := List.mem_takeWhile_imp hc
        simp at this
      · intro hc
        rw [List.mem_reverse] at hc
        have := List.mem_takeWhile_imp hc
        simp at this
  · rintro ⟨pre, mid, post, ht, hpre, hpost, hshape⟩
    have ht2 : t.data = pre ++ d ++ post := ht
    have hshape2 : d = lbrace :: mid ++ [rbrace] := hshape
    have hP : ∀ c ∈ pre, (!decide (c = lbrace)) = true := by
      intro c hc
      simp only [Bool.not_eq_true', decide_eq_false_iff_not]
      exact fun hcc => hpre (hcc ▸ hc)
    have hQ : ∀ c ∈ post.reverse, (!decide (c = rbrace)) = true := by
      intro c hc
      simp only [Bool.not_eq_true', decide_eq_false_iff_not]
      rw [List.mem_reverse] at hc
      exact fun hcc => hpost (hcc ▸ hc)
    have h1 : t.data.dropWhile (fun c => !decide (c = lbrace)) = d ++ post := by
      rw [ht2, List.append_assoc, dropWhile_append_all hP, hshape2,
        List.cons_append, List.cons_append, dropWhile_cons_false (by simp)]
    have h2 : (d ++ post).reverse.dropWhile (fun c => !decide (c = rbrace)) =
        d.reverse := by
      rw [List.reverse_append, dropWhile_append_all hQ, hshape2]
      rw [show (lbrace :: mid ++ [rbrace]).reverse =
            rbrace :: (mid.reverse ++ [lbrace]) by simp]
      rw [dropWhile_cons_false (by simp)]
    unfold extractBraces
    rw [h1, h2, List.reverse_reverse]
    rw [if_neg (by rw [hshape2]; simp)]

/-- Modelled from the spec: the claim reads "extract the first
brace-delimited JSON object found anywhere in the raw response text".
Scanning start positions left to right and, at each position, span lengths
short to long, this returns the first substring that starts with an
opening brace, ends with a closing brace, and parses as JSON.  It exists
only as the spec's reading of the extraction, to be compared with the
implementation's greedy `extractBraces`. -/
def firstObjAt (cs : List Char) : Option String :=
  (List.range (cs.length + 1)).findSome? (fun j =>
    if (cs.take j).head? = some lbrace ∧ (cs.take j).getLast? = some rbrace ∧
        (jsonLoads (String.mk (cs.take j))).isSome = true
    then some (String.mk (cs.take j)) else none)

/-- See `firstObjAt`: first matching start position wins. -/
def specFirstObject : List Char → Option String
  | [] => none
  | c :: rest =>
    match firstObjAt (c :: rest) with
    | some s => some s
    | none => specFirstObject rest

/-- The counterexample text: a complete JSON object followed by a stray
closing brace. -/
def tCex : String := "\x7b\"A\":\x7b\"goal\":\"go_cafe\"\x7d\x7d x\x7d"

/-- C5 counterexample: the response text contains a first brace-delimited
JSON object naming agent A with a valid goal, but the greedy regex spans up
to the *last* closing brace, the span fails to parse, and the round changes
no agent — refuting "extracts the first brace-delimited JSON object found
anywhere in the raw response text ... and applies it per entry". -/
theorem parse_first_object_cex :
    specFirstObject tCex.data =
      some "\x7b\"A\":\x7b\"goal\":\"go_cafe\"\x7d\x7d" ∧
    extractBraces tCex =
      some "\x7b\"A\":\x7b\"goal\":\"go_cafe\"\x7d\x7d x\x7d" ∧
    extractBraces tCex ≠ specFirstObject tCex.data ∧
    brainParse tCex wTest = (wTest, none) := by
  refine ⟨by decide, by decide, by decide, rfl⟩

/-- The first HOME zone and the CAFE zone of the program's zone set. -/
def homeA : Zone := Zone.mk "home_a" .HOME ⟨50, 70, 130, 130⟩ (40, 45, 75)

/-- See `homeA`. -/
def cafeZ : Zone := Zone.mk "cafe" .CAFE ⟨400, 70, 170, 150⟩ (75, 55, 45)

/-- The spec's concrete oracle reply, with surrounding commentary. -/
def tOk : String := "blah \x7b\"A\":\x7b\"goal\":\"go_cafe\"\x7d\x7d blah"

/-- Agent A of `mkWorld` as a standalone record. -/
def agentA (nA : Needs) : Agent :=
  mkAgent "A" "Alice" (10, 132, 255) homeA (PathGraph.ofZones worldZones)
    worldZones nA

/-- C5 (amended): response parsing extracts the greedy brace span — from
the first opening brace of the response to its last closing brace (the
characterisation conjunct), not the first JSON object — and applies the
parsed object per entry: unknown agent ids are skipped; dead agents are
skipped; the goal string is trimmed and lowercased and unrecognized or
`idle` strings are skipped; `go_home` resolves to the named agent's own
home zone; the remaining goals resolve to the first zone of the matching
type, with `assign` called only when that zone exists.  On the concrete
reply `"blah {"A":{"goal":"go_cafe"}} blah"` agent A receives `GO_CAFE`
with the cafe zone while B and C are untouched. -/
theorem parse_apply_spec :
    (∀ t s : String, extractBraces t = some s ↔
      ∃ pre mid post : List Char,
        t.data = pre ++ s.data ++ post ∧ lbrace ∉ pre ∧ rbrace ∉ post ∧
        s.data = lbrace :: mid ++ [rbrace]) ∧
    (∀ (w : World) (aid : String) (act : Json) (rest : List (String × Json)),
      w.agents.lookup aid = none →
      applyEntries ((aid, act) :: rest) w = applyEntries rest w) ∧
    (∀ (w : World) (aid : String) (act : Json) (rest : List (String × Json))
        (ag : Agent), w.agents.lookup aid = some ag → ag.alive = false →
      applyEntries ((aid, act) :: rest) w = applyEntries rest w) ∧
    (∀ (w : World) (aid : String) (fields : List (String × Json))
        (rest : List (String × Json)) (ag : Agent),
      w.agents.lookup aid = some ag → ag.alive = true →
      (goalMap (normGoal (pyStr ((fields.lookup "goal").getD (Json.str "")))) =
          none ∨
       goalMap (normGoal (pyStr ((fields.lookup "goal").getD (Json.str "")))) =
          some Goal.IDLE) →
      applyEntries ((aid, Json.obj fields) :: rest) w = applyEntries rest w) ∧
    (∀ (w : World) (aid : String) (fields : List (String × Json))
        (rest : List (String × Json)) (ag : Agent),
      w.agents.lookup aid = some ag → ag.alive = true →
      goalMap (normGoal (pyStr ((fields.lookup "goal").getD (Json.str "")))) =
        some Goal.GO_HOME →
      applyEntries ((aid, Json.obj fields) :: rest) w =
        applyEntries rest (w.setAgent aid (ag.assign Goal.GO_HOME (some ag.home)))) ∧
    (∀ (w : World) (aid : String) (fields : List (String × Json))
        (rest : List (String × Json)) (ag : Agent) (g : Goal) (zt : ZoneType),
      w.agents.lookup aid = some ag → ag.alive = true →
      goalMap (normGoal (pyStr ((fields.lookup "goal").getD (Json.str "")))) =
        some g →
      g ≠ Goal.IDLE → g ≠ Goal.GO_HOME → zoneForGoal g = some zt →
      applyEntries ((aid, Json.obj fields) :: rest) w =
        (match w.zone_by_type zt with
         | some tz => applyEntries rest (w.setAgent aid (ag.assign g (some tz)))
         | none => applyEntries rest w)) ∧
    (∀ nA nB nC : Needs,
      brainParse tOk (mkWorld nA nB nC) =
        ((mkWorld nA nB nC).setAgent "A"
          ((agentA nA).assign Goal.GO_CAFE (some cafeZ)), none) ∧
      ((agentA nA).assign Goal.GO_CAFE (some cafeZ)).goal = Goal.GO_CAFE ∧
      ((agentA nA).assign Goal.GO_CAFE (some cafeZ)).target = some cafeZ ∧
      (mkWorld nA nB nC).zone_by_type ZoneType.CAFE = some cafeZ ∧
      (brainParse tOk (mkWorld nA nB nC)).1.agents.lookup "B" =
        (mkWorld nA nB nC).agents.lookup "B" ∧
      (brainParse tOk (mkWorld nA nB nC)).1.agents.lookup "C" =
        (mkWorld nA nB nC).agents.lookup "C") := by
  refine ⟨extractBraces_some_iff, ?_, ?_, ?_, ?_, ?_, ?_⟩
  · intro w aid act rest h
    conv_lhs => unfold applyEntries
    rw [h]
  · intro w aid act rest ag h hd
    conv_lhs => unfold applyEntries
    rw [h]
    dsimp only
    rw [if_pos hd]
  · intro w aid fields rest ag h halive hg
    rcases hg with hg | hg <;>
      · conv_lhs => unfold applyEntries
        rw [h]
        dsimp only
        rw [if_neg (by simp [halive]), hg]
  · intro w aid fields rest ag h halive hg
    conv_lhs => unfold applyEntries
    rw [h]
    dsimp only
    rw [if_neg (by simp [halive]), hg]
    dsimp only [zoneForGoal]
    rw [if_pos rfl]
  · intro w aid fields rest ag g zt h halive hg hne hnh hzt
    cases g with
    | IDLE => exact absurd rfl hne
    | GO_HOME => exact absurd rfl hnh
    | GO_WORK =>
      injection hzt with hzt2
      subst hzt2
      conv_lhs => unfold applyEntries
      rw [h]
      dsimp only
      rw [if_neg (by simp [halive]), hg]
      dsimp only [zoneForGoal]
      rw [show (if Goal.GO_WORK = Goal.GO_HOME then some ag.home
          else w.zone_by_type ZoneType.WORK) = w.zone_by_type ZoneType.WORK
        from if_neg (by decide)]
    | GO_CAFE =>
      injection hzt with hzt2
      subst hzt2
      conv_lhs => unfold applyEntries
      rw [h]
      dsimp only
      rw [if_neg (by simp [halive]), hg]
      dsimp only [zoneForGoal]
      rw [show (if Goal.GO_CAFE = Goal.GO_HOME then some ag.home
          else w.zone_by_type ZoneType.CAFE) = w.zone_by_type ZoneType.CAFE
        from if_neg (by decide)]
    | GO_PARK =>
      injection hzt with hzt2
      subst hzt2
      conv_lhs => unfold applyEntries
      rw [h]
      dsimp only
      rw [if_neg (by simp [halive]), hg]
      dsimp only [zoneForGoal]
      rw [show (if Goal.GO_PARK = Goal.GO_HOME then some ag.home
          else w.zone_by_type ZoneType.PARK) = w.zone_by_type ZoneType.PARK
        from if_neg (by decide)]
  · intro nA nB nC
    exact ⟨rfl, rfl, rfl, rfl, rfl, rfl⟩

/-- Witness for amended C5: an unknown agent id is skipped, and the
spec's concrete reply assigns `GO_CAFE`/cafe to agent A. -/
theorem parse_apply_spec_witness :
    applyEntries [("Z", Json.null)] wTest = applyEntries [] wTest ∧
    brainParse tOk wTest =
      (wTest.setAgent "A" ((agentA n6).assign Goal.GO_CAFE (some cafeZ)), none) :=
  ⟨parse_apply_spec.2.1 wTest "Z" Json.null [] (by decide),
   (parse_apply_spec.2.2.2.2.2.2 n6 n6 n6).1⟩

/-- Walks of the adjacency structure: `Walk adj u v p` says `p` is a
non-empty chain of zone names from `u` to `v` following `adjGet`. -/
inductive Walk (adj : List (String × List String)) : String → String → List String → Prop where
  | single (u : String) : Walk adj u u [u]
  | cons (u v w : String) (p : List String) (h : v ∈ adjGet adj u)
      (hw : Walk adj v w p) : Walk adj u w (u :: p)

theorem Walk.ne_nil {adj : List (String × List String)} {u v : String}
    {p : List String} (h : Walk adj u v p) : p ≠ [] := by
  cases h <;> simp

theorem Walk.length_pos {adj : List (String × List String)} {u v : String}
    {p : List String} (h : Walk adj u v p) : 1 ≤ p.length := by
  cases h <;> simp

theorem Walk.head_eq {adj : List (String × List String)} {u v : String}
    {p : List String} (h : Walk adj u v p) : p.head? = some u := by
  cases h <;> rfl

theorem Walk.getLastD_eq {adj : List (String × List String)} {u v : String}
    {p : List String} (h : Walk adj u v p) : p.getLastD "" = v := by
  induction h with
  | single u => rfl
  | cons u v w p h hw ih =>
    rw [← ih]
    cases hw <;> rfl

theorem Walk.getLast?_eq {adj : List (String × List String)} {u v : String}
    {p : List String} (h : Walk adj u v p) : p.getLast? = some v := by
  have h1 := h.getLastD_eq
  have h2 := h.ne_nil
  cases hp : p.getLast? with
  | none => exact absurd (List.getLast?_eq_none_iff.1 hp) h2
  | some x =>
    rw [List.getLastD_eq_getLast?, hp] at h1
    simp only [Option.getD_some] at h1
    rw [h1]

theorem Walk.two_le {adj : List (String × List String)} {u v : String}
    {p : List String} (h : Walk adj u v p) (hne : u ≠ v) : 2 ≤ p.length := by
  cases h with
  | single u => exact absurd rfl hne
  | cons u x w q hx hw => simpa using hw.length_pos

/-- Extending a walk by one adjacency step at the end. -/
theorem Walk.snoc {adj : List (String × List String)} {u v w : String}
    {p : List String} (h : Walk adj u v p) (hw : w ∈ adjGet adj v) :
    Walk adj u w (p ++ [w]) := by
  induction h with
  | single u => exact Walk.cons u w w [w] hw (Walk.single w)
  | cons u x y q hx hq ih => exact Walk.cons u x w (q ++ [w]) hx (ih hw)

/-- Inverting a walk at its last step. -/
theorem Walk.snoc_cases {adj : List (String × List String)} {u v : String}
    {p : List String} (h : Walk adj u v p) :
    (p = [u] ∧ v = u) ∨
    ∃ q x, Walk adj u x q ∧ v ∈ adjGet adj x ∧ p = q ++ [v] := by
  induction h with
  | single u => exact Or.inl ⟨rfl, rfl⟩
  | cons u x w q hx hq ih =>
    cases ih with
    | inl hc =>
      refine Or.inr ⟨[u], u, Walk.single u, ?_, ?_⟩
      · rw [← hc.2] at hx
        exact hx
      · rw [hc.1, hc.2]
        rfl
    | inr hc =>
      obtain ⟨q0, y, hq0, hy, rfl⟩ := hc
      exact Or.inr ⟨u :: q0, y, Walk.cons u x y q0 hx hq0, hy,
        by rw [List.cons_append]⟩

/-- Nodes reachable from inside an adjacency-closed set stay inside it. -/
theorem Walk.mem_closed {adj : List (String × List String)} {S : List String}
    (hclosed : ∀ u ∈ S, ∀ v ∈ adjGet adj u, v ∈ S) :
    ∀ {u v : String} {p : List String}, Walk adj u v p → u ∈ S → v ∈ S := by
  intro u v p h
  induction h with
  | single u => exact id
  | cons u x w q hx hq ih => exact fun hu => ih (hclosed u hu x hx)

/-- The seen set only grows during one expansion. -/
theorem stepExpand_seen_sub (p : List String) :
    ∀ (nbrs : List String) (q : List (List String)) (seen : List String)
      (x : String), x ∈ seen → x ∈ (stepExpand p nbrs q seen).2 := by
  intro nbrs
  induction nbrs with
  | nil => exact fun q seen x hx => hx
  | cons nb rest ih =>
    intro q seen x hx
    unfold stepExpand
    split
    · exact ih q seen x hx
    · exact ih (q ++ [p ++ [nb]]) (nb :: seen) x (List.mem_cons_of_mem nb hx)

/-- Everything in the expanded seen set was seen before or is a neighbour. -/
theorem stepExpand_seen_sup (p : List String) :
    ∀ (nbrs : List String) (q : List (List String)) (seen : List String)
      (x : String), x ∈ (stepExpand p nbrs q seen).2 →
      x ∈ seen ∨ x ∈ nbrs := by
  intro nbrs
  induction nbrs with
  | nil => exact fun q seen x hx => Or.inl hx
  | cons nb rest ih =>
    intro q seen x hx
    unfold stepExpand at hx
    split at hx
    · rcases ih q seen x hx with h | h
      · exact Or.inl h
      · exact Or.inr (List.mem_cons_of_mem nb h)
    · rcases ih (q ++ [p ++ [nb]]) (nb :: seen) x hx with h | h
      · rcases List.mem_cons.1 h with h2 | h2
        · exact Or.inr (h2 ▸ List.mem_cons_self nb rest)
        · exact Or.inl h2
      · exact Or.inr (List.mem_cons_of_mem nb h)

/-- After an expansion every neighbour is seen. -/
theorem stepExpand_covers (p : List String) :
    ∀ (nbrs : List String) (q : List (List String)) (seen : List String)
      (nb : String), nb ∈ nbrs → nb ∈ (stepExpand p nbrs q seen).2 := by
  intro nbrs
  induction nbrs with
  | nil => exact fun q seen nb h => absurd h (List.not_mem_nil nb)
  | cons nb0 rest ih =>
    intro q seen nb h
    unfold stepExpand
    split
    next hseen =>
      rcases List.mem_cons.1 h with h2 | h2
      · exact stepExpand_seen_sub p rest q seen nb (h2 ▸ hseen)
      · exact ih q seen nb h2
    next hseen =>
      rcases List.mem_cons.1 h with h2 | h2
      · exact stepExpand_seen_sub p rest (q ++ [p ++ [nb0]]) (nb0 :: seen) nb
          (h2 ▸ List.mem_cons_self nb0 seen)
      · exact ih (q ++ [p ++ [nb0]]) (nb0 :: seen) nb h2

/-- The expanded queue is the old queue plus fresh single-step extensions
of the dequeued path. -/
theorem stepExpand_queue (p : List String) :
    ∀ (nbrs : List String) (q : List (List String)) (seen : List String),
      ∃ ext, (stepExpand p nbrs q seen).1 = q ++ ext ∧
        ∀ P ∈ ext, ∃ nb, nb ∈ nbrs ∧ nb ∉ seen ∧ P = p ++ [nb] := by
  intro nbrs
  induction nbrs with
  | nil => exact fun q seen => ⟨[], by simp [stepExpand]⟩
  | cons nb rest ih =>
    intro q seen
    unfold stepExpand
    split
    next hseen =>
      obtain ⟨ext, he, hP⟩ := ih q seen
      exact ⟨ext, he, fun P hPm =>
        let ⟨nb2, h1, h2, h3⟩ := hP P hPm
        ⟨nb2, List.mem_cons_of_mem nb h1, h2, h3⟩⟩
    next hseen =>
      obtain ⟨ext, he, hP⟩ := ih (q ++ [p ++ [nb]]) (nb :: seen)
      refine ⟨(p ++ [nb]) :: ext, by rw [he]; simp, ?_⟩
      intro P hPm
      rcases List.mem_cons.1 hPm with h2 | h2
      · exact ⟨nb, List.mem_cons_self nb rest, hseen, h2⟩
      · obtain ⟨nb2, h1, h2b, h3⟩ := hP P h2
        refine ⟨nb2, List.mem_cons_of_mem nb h1, fun hc => h2b ?_, h3⟩
        exact List.mem_cons_of_mem nb hc

/-- A fresh neighbour's extension really is enqueued. -/
theorem stepExpand_added (p : List String) :
    ∀ (nbrs : List String) (q : List (List String)) (seen : List String)
      (nb : String), nb ∈ nbrs → nb ∉ seen →
      (p ++ [nb]) ∈ (stepExpand p nbrs q seen).1 := by
  intro nbrs
  induction nbrs with
  | nil => exact fun q seen nb h _ => absurd h (List.not_mem_nil nb)
  | cons nb0 rest ih =>
    intro q seen nb h hns
    unfold stepExpand
    split
    next hseen =>
      rcases List.mem_cons.1 h with h2 | h2
      · exact absurd (h2 ▸ hseen) hns
      · exact ih q seen nb h2 hns
    next hseen =>
      by_cases hEq : nb = nb0
      · subst hEq
        obtain ⟨ext, he, _⟩ := stepExpand_queue p rest (q ++ [p ++ [nb]]) (nb :: seen)
        rw [he]
        exact List.mem_append_left ext (List.mem_append_right q (List.mem_singleton.2 rfl))
      · rcases List.mem_cons.1 h with h2 | h2
        · exact absurd h2 hEq
        · exact ih (q ++ [p ++ [nb0]]) (nb0 :: seen) nb h2
            (fun hc => (List.mem_cons.1 hc).elim hEq hns)

/-- The number of universe elements not yet seen. -/
def unseenCount (univ seen : List String) : ℕ :=
  univ.countP (fun x => !decide (x ∈ seen))

/-- Marking a fresh universe element seen strictly shrinks the count. -/
theorem unseenCount_cons_lt (univ : List String) (x : String)
    (seen : List String) (hx : x ∈ univ) (hns : x ∉ seen) :
    unseenCount univ (x :: seen) < unseenCount univ seen := by
  unfold unseenCount
  induction univ with
  | nil => cases hx
  | cons h t ih =>
    rw [List.countP_cons, List.countP_cons]
    have hmono : t.countP (fun y => !decide (y ∈ x :: seen)) ≤
        t.countP (fun y => !decide (y ∈ seen)) := by
      apply List.countP_mono_left
      intro a _ ha
      simp only [Bool.not_eq_true', decide_eq_false_iff_not] at ha ⊢
      exact fun hc => ha (List.mem_cons_of_mem x hc)
    by_cases hxh : x = h
    · subst hxh
      rw [show (!decide (x ∈ x :: seen)) = false by simp,
        show (!decide (x ∈ seen)) = true by simp [hns],
        show (if (false : Bool) = true then 1 else 0) = 0 from rfl,
        show (if (true : Bool) = true then 1 else 0) = 1 from rfl]
      omega
    · have hxt : x ∈ t := (List.mem_cons.1 hx).resolve_left hxh
      have hlt := ih hxt
      have hle : (if (!decide (h ∈ x :: seen)) = true then 1 else 0) ≤
          (if (!decide (h ∈ seen)) = true then 1 else 0) := by
        by_cases hh : h ∈ seen
        · simp [hh, List.mem_cons_of_mem x hh]
        · by_cases hh2 : h ∈ x :: seen <;> simp [hh, hh2]
      omega

/-- Marking any element seen never grows the count. -/
theorem unseenCount_cons_le (univ : List String) (x : String)
    (seen : List String) :
    unseenCount univ (x :: seen) ≤ unseenCount univ seen := by
  apply List.countP_mono_left
  intro a _ ha
  simp only [Bool.not_eq_true', decide_eq_false_iff_not] at ha ⊢
  exact fun hc => ha (List.mem_cons_of_mem x hc)

/-- One expansion step can only decrease `unseen + queue length`. -/
theorem stepExpand_measure (univ : List String) (p : List String) :
    ∀ (nbrs : List String) (q : List (List String)) (seen : List String),
      (∀ nb ∈ nbrs, nb ∈ univ) →
      unseenCount univ (stepExpand p nbrs q seen).2 +
        (stepExpand p nbrs q seen).1.length ≤
      unseenCount univ seen + q.length := by
  intro nbrs
  induction nbrs with
  | nil => exact fun q seen _ => le_refl _
  | cons nb rest ih =>
    intro q seen huniv
    unfold stepExpand
    split
    next hseen =>
      exact ih q seen (fun x hx => huniv x (List.mem_cons_of_mem nb hx))
    next hseen =>
      have h1 := ih (q ++ [p ++ [nb]]) (nb :: seen)
        (fun x hx => huniv x (List.mem_cons_of_mem nb hx))
      have h2 := unseenCount_cons_lt univ nb seen
        (huniv nb (List.mem_cons_self nb rest)) hseen
      simp only [List.length_append, List.length_cons, List.length_nil] at h1
      omega

/-- Adjacency values live in the value universe. -/
theorem adjGet_subset_univ (adj : List (String × List String)) (u v : String)
    (h : v ∈ adjGet adj u) : v ∈ univList adj := by
  unfold adjGet at h
  cases hl : adj.lookup u with
  | none => rw [hl] at h; cases h
  | some l =>
    rw [hl] at h
    simp only [Option.getD_some] at h
    unfold univList
    rw [List.mem_flatten]
    exact ⟨l, List.mem_map.2 ⟨(u, l), mem_of_lookup_eq_some hl, rfl⟩, h⟩

/-- Loop invariant of the BFS in `PathGraph.find`, for source `s` and
target `e`: every queued path is a walk from `s` to its own endpoint and a
shortest one; the queue is sorted by length and spans at most two
consecutive lengths; walks to unseen nodes are strictly longer than the
queue head; every seen node is either fully expanded or the endpoint of a
pending path; the target, once seen, is pending; and the source is seen. -/
structure BfsInv (adj : List (String × List String)) (s e : String)
    (Q : List (List String)) (S : List String) : Prop where
  walks : ∀ p ∈ Q, Walk adj s (p.getLastD "") p
  sorted : Q.Pairwise (fun p q => p.length ≤ q.length)
  span : ∀ p ∈ Q, ∀ q ∈ Q, p.length ≤ q.length + 1
  short : ∀ p ∈ Q, ∀ q, Walk adj s (p.getLastD "") q → p.length ≤ q.length
  front : ∀ p rest, Q = p :: rest → ∀ u, u ∉ S → ∀ q, Walk adj s u q →
    p.length + 1 ≤ q.length
  pend : ∀ u ∈ S, (∀ v ∈ adjGet adj u, v ∈ S) ∨ ∃ p ∈ Q, p.getLastD "" = u
  pendE : e ∈ S → ∃ p ∈ Q, p.getLastD "" = e
  smem : s ∈ S

/-- Master lemma: from any state satisfying the invariant, with enough
fuel, the BFS loop returns a shortest walk to the target when one exists,
exhausts the queue exactly when none exists, and never runs out of fuel. -/
theorem bfsRun_spec (adj : List (String × List String)) (s e : String) :
    ∀ (fuel : ℕ) (Q : List (List String)) (S : List String),
      BfsInv adj s e Q S →
      unseenCount (univList adj) S + Q.length < fuel →
      (match bfsRun adj e fuel Q S with
       | some (some p) =>
           Walk adj s e p ∧ ∀ q, Walk adj s e q → p.length ≤ q.length
       | some none => ¬ ∃ q, Walk adj s e q
       | none => False) := by
  intro fuel
  induction fuel with
  | zero => intro Q S _ hb; omega
  | succ fuel ih =>
    intro Q S hInv hb
    cases Q with
    | nil =>
      show ¬ ∃ q, Walk adj s e q
      rintro ⟨q, hq⟩
      have hclosed : ∀ u ∈ S, ∀ v ∈ adjGet adj u, v ∈ S := by
        intro u hu v hv
        rcases hInv.pend u hu with h | ⟨p, hp, _⟩
        · exact h v hv
        · cases hp
      obtain ⟨p, hp, _⟩ := hInv.pendE (Walk.mem_closed hclosed hq hInv.smem)
      cases hp
    | cons p0 rest =>
      by_cases hchk : p0.getLastD "" = e
      · have hrun : bfsRun adj e (fuel + 1) (p0 :: rest) S = some (some p0) := by
          unfold bfsRun
          rw [if_pos hchk]
        rw [hrun]
        have hw := hInv.walks p0 (List.mem_cons_self p0 rest)
        rw [hchk] at hw
        refine ⟨hw, fun q hq => ?_⟩
        refine hInv.short p0 (List.mem_cons_self p0 rest) q ?_
        rw [hchk]
        exact hq
      · have hrun : bfsRun adj e (fuel + 1) (p0 :: rest) S =
            bfsRun adj e fuel
              (stepExpand p0 (adjGet adj (p0.getLastD "")) rest S).1
              (stepExpand p0 (adjGet adj (p0.getLastD "")) rest S).2 := by
          show (if p0.getLastD "" = e then some (some p0)
              else bfsRun adj e fuel
                (stepExpand p0 (adjGet adj (p0.getLastD "")) rest S).1
                (stepExpand p0 (adjGet adj (p0.getLastD "")) rest S).2) =
            bfsRun adj e fuel
              (stepExpand p0 (adjGet adj (p0.getLastD "")) rest S).1
              (stepExpand p0 (adjGet adj (p0.getLastD "")) rest S).2
          rw [if_neg hchk]
        rw [hrun]
        obtain ⟨ext, hqe, hext⟩ :=
          stepExpand_queue p0 (adjGet adj (p0.getLastD "")) rest S
        have hw0 : Walk adj s (p0.getLastD "") p0 :=
          hInv.walks p0 (List.mem_cons_self p0 rest)
        have hLext : ∀ P ∈ ext, P.length = p0.length + 1 := by
          intro P hP
          obtain ⟨nb, _, _, rfl⟩ := hext P hP
          simp
        have hrest_lb : ∀ P ∈ rest, p0.length ≤ P.length := by
          intro P hP
          exact List.rel_of_pairwise_cons hInv.sorted hP
        have hrest_ub : ∀ P ∈ rest, P.length ≤ p0.length + 1 := by
          intro P hP
          exact hInv.span P (List.mem_cons_of_mem p0 hP) p0
            (List.mem_cons_self p0 rest)
        have hbnd : ∀ P ∈ (stepExpand p0 (adjGet adj (p0.getLastD "")) rest S).1,
            p0.length ≤ P.length ∧ P.length ≤ p0.length + 1 := by
          intro P hP
          rw [hqe] at hP
          rcases List.mem_append.1 hP with hP | hP
          · exact ⟨hrest_lb P hP, hrest_ub P hP⟩
          · rw [hLext P hP]
            omega
        have hsub : ∀ x ∈ S,
            x ∈ (stepExpand p0 (adjGet adj (p0.getLastD "")) rest S).2 :=
          fun x hx => stepExpand_seen_sub p0 _ rest S x hx
        have hwalks2 : ∀ P ∈ (stepExpand p0 (adjGet adj (p0.getLastD "")) rest S).1,
            Walk adj s (P.getLastD "") P := by
          intro P hP
          rw [hqe] at hP
          rcases List.mem_append.1 hP with hP | hP
          · exact hInv.walks P (List.mem_cons_of_mem p0 hP)
          · obtain ⟨nb, hnb, _, rfl⟩ := hext P hP
            rw [List.getLastD_concat]
            exact hw0.snoc hnb
        have hsorted2 : (stepExpand p0 (adjGet adj (p0.getLastD "")) rest S).1.Pairwise
            (fun p q => p.length ≤ q.length) := by
          rw [hqe]
          rw [List.pairwise_append]
          refine ⟨hInv.sorted.of_cons, ?_, ?_⟩
          · rw [List.pairwise_iff_forall_sublist]
            intro a b hab
            have ha := hab.subset (List.mem_cons_self a [b])
            have hbm := hab.subset (List.mem_cons_of_mem a (List.mem_cons_self b []))
            rw [hLext a ha, hLext b hbm]
          · intro a ha b hb
            rw [hLext b hb]
            exact hrest_ub a ha
        refine ih _ _ ⟨hwalks2, hsorted2, ?_, ?_, ?_, ?_, ?_, ?_⟩ ?_
        · -- span
          intro p hp q hq
          have h1 := hbnd p hp
          have h2 := hbnd q hq
          omega
        · -- short
          intro P hP q hq
          rw [hqe] at hP
          rcases List.mem_append.1 hP with hP | hP
          · exact hInv.short P (List.mem_cons_of_mem p0 hP) q hq
          · obtain ⟨nb, hnb, hnbS, rfl⟩ := hext P hP
            rw [List.getLastD_concat] at hq
            have := hInv.front p0 rest rfl nb hnbS q hq
            simp only [List.length_append, List.length_cons, List.length_nil]
            omega
        · -- front
          intro P1 rest1 hQeq u hu q hq
          have huS : u ∉ S := fun hc => hu (hsub u hc)
          have hq1 := hInv.front p0 rest rfl u huS q hq
          have hP1mem : P1 ∈ (stepExpand p0 (adjGet adj (p0.getLastD "")) rest S).1 := by
            rw [hQeq]
            exact List.mem_cons_self P1 rest1
          have hP1ub := (hbnd P1 hP1mem).2
          by_cases hP1L : P1.length ≤ p0.length
          · omega
          · -- P1 has length L+1; rule out |q| = L+1
            have hq2 : p0.length + 2 ≤ q.length := by
              by_contra hqs
              have hqlen : q.length = p0.length + 1 := by omega
              rcases hq.snoc_cases with ⟨rfl, rfl⟩ | ⟨q0, x, hq0, hx, rfl⟩
              · exact huS hInv.smem
              · have hq0len : q0.length = p0.length := by
                  simp only [List.length_append, List.length_cons,
                    List.length_nil] at hqlen
                  omega
                by_cases hxS : x ∈ S
                · rcases hInv.pend x hxS with hcl | ⟨pv, hpv, hpvl⟩
                  · exact huS (hcl u hx)
                  · rcases List.mem_cons.1 hpv with hpv0 | hpvrest
                    · -- pv = p0, so x is the expanded node: u becomes seen
                      rw [hpv0] at hpvl
                      rw [← hpvl] at hx
                      exact hu (stepExpand_covers p0 _ rest S u hx)
                    · have hpvshort := hInv.short pv
                        (List.mem_cons_of_mem p0 hpvrest) q0 (hpvl ▸ hq0)
                      have hpvQ2 : pv ∈
                          (stepExpand p0 (adjGet adj (p0.getLastD "")) rest S).1 := by
                        rw [hqe]
                        exact List.mem_append_left ext hpvrest
                      have hP1le : P1.length ≤ pv.length := by
                        rw [hQeq] at hpvQ2
                        rcases List.mem_cons.1 hpvQ2 with hc | hc
                        · rw [hc]
                        · have h5 := List.rel_of_pairwise_cons
                            (hQeq ▸ hsorted2) hc
                          exact h5
                      omega
                · have := hInv.front p0 rest rfl x hxS q0 hq0
                  omega
            omega
        · -- pend
          intro u hu
          by_cases huS : u ∈ S
          · rcases hInv.pend u huS with hcl | ⟨pv, hpv, hpvl⟩
            · exact Or.inl (fun v hv => hsub v (hcl v hv))
            · rcases List.mem_cons.1 hpv with hpv0 | hpvrest
              · refine Or.inl ?_
                rw [hpv0] at hpvl
                rw [← hpvl]
                exact fun v hv => stepExpand_covers p0 _ rest S v hv
              · refine Or.inr ⟨pv, ?_, hpvl⟩
                rw [hqe]
                exact List.mem_append_left ext hpvrest
          · have hunb : u ∈ adjGet adj (p0.getLastD "") :=
              (stepExpand_seen_sup p0 _ rest S u hu).resolve_left huS
            refine Or.inr ⟨p0 ++ [u], ?_, List.getLastD_concat "" u p0⟩
            exact stepExpand_added p0 _ rest S u hunb huS
        · -- pendE
          intro he
          by_cases heS : e ∈ S
          · obtain ⟨pv, hpv, hpvl⟩ := hInv.pendE heS
            rcases List.mem_cons.1 hpv with hpv0 | hpvrest
            · exact absurd (hpv0 ▸ hpvl) hchk
            · refine ⟨pv, ?_, hpvl⟩
              rw [hqe]
              exact List.mem_append_left ext hpvrest
          · have henb : e ∈ adjGet adj (p0.getLastD "") :=
              (stepExpand_seen_sup p0 _ rest S e he).resolve_left heS
            exact ⟨p0 ++ [e], stepExpand_added p0 _ rest S e henb heS,
              List.getLastD_concat "" e p0⟩
        · -- smem
          exact hsub s hInv.smem
        · -- fuel bound
          have hm := stepExpand_measure (univList adj) p0
            (adjGet adj (p0.getLastD "")) rest S
            (fun nb h => adjGet_subset_univ adj (p0.getLastD "") nb h)
          simp only [List.length_cons] at hb
          omega

/-- C3: `find(z, z)` is the single-element path at `z`'s center; for
distinct connected zones the result is the image under the center map of a
walk of minimum hop count, non-empty, starting at `a`'s center and ending
at `b`'s center; and for distinct unconnected zones the result is the
two-point fallback `[a's center, b's center]`. -/
theorem find_path_spec (g : PathGraph) (a b : String) (hne : a ≠ b) :
    g.find a a = [g.posD a] ∧
    ((∃ q, Walk g.adj a b q) →
      ∃ p, Walk g.adj a b p ∧ g.find a b = p.map g.posD ∧
        g.find a b ≠ [] ∧ (g.find a b).head? = some (g.posD a) ∧
        (g.find a b).getLast? = some (g.posD b) ∧
        ∀ q, Walk g.adj a b q → p.length ≤ q.length) ∧
    ((¬ ∃ q, Walk g.adj a b q) → g.find a b = [g.posD a, g.posD b]) := by
  have hfind1 : g.find a a = [g.posD a] := by
    unfold PathGraph.find
    rw [if_pos rfl]
  have hInv : BfsInv g.adj a b [[a]] [a] := by
    refine ⟨?_, ?_, ?_, ?_, ?_, ?_, ?_, ?_⟩
    · intro p hp
      rw [List.mem_singleton.1 hp]
      exact Walk.single a
    · exact List.pairwise_singleton _ _
    · intro p hp q hq
      rw [List.mem_singleton.1 hp, List.mem_singleton.1 hq]
      omega
    · intro p hp q hq
      rw [List.mem_singleton.1 hp]
      rw [List.mem_singleton.1 hp] at hq
      exact hq.length_pos
    · intro p rest heq u hu q hq
      have hp : p = [a] := (List.cons.injEq _ _ _ _ ▸ heq.symm).1
      rw [hp]
      have hua : a ≠ u := fun hc => hu (hc ▸ List.mem_singleton.2 rfl)
      exact hq.two_le hua
    · intro u hu
      rw [List.mem_singleton.1 hu]
      exact Or.inr ⟨[a], List.mem_singleton.2 rfl, rfl⟩
    · intro hbm
      exact absurd (List.mem_singleton.1 hbm).symm hne
    · exact List.mem_singleton.2 rfl
  have hbound : unseenCount (univList g.adj) [a] + ([[a]] : List (List String)).length
      < (univList g.adj).length + 2 := by
    have := List.countP_le_length
      (p := fun x => !decide (x ∈ ([a] : List String))) (l := univList g.adj)
    unfold unseenCount
    simp only [List.length_singleton]
    omega
  have hspec := bfsRun_spec g.adj a b ((univList g.adj).length + 2) [[a]] [a]
    hInv hbound
  refine ⟨hfind1, ?_, ?_⟩
  · intro hreach
    cases hrun : bfsRun g.adj b ((univList g.adj).length + 2) [[a]] [a] with
    | none =>
      rw [hrun] at hspec
      exact hspec.elim
    | some o =>
      cases o with
      | none =>
        rw [hrun] at hspec
        exact absurd hreach hspec
      | some p =>
        rw [hrun] at hspec
        obtain ⟨hw, hmin⟩ := hspec
        have hfeq : g.find a b = p.map g.posD := by
          unfold PathGraph.find
          rw [if_neg hne, hrun]
        refine ⟨p, hw, hfeq, ?_, ?_, ?_, hmin⟩
        · rw [hfeq]
          simp [hw.ne_nil]
        · rw [hfeq, List.head?_map, hw.head_eq]
          rfl
        · rw [hfeq, List.getLast?_map, hw.getLast?_eq]
          rfl
  · intro hnone
    cases hrun : bfsRun g.adj b ((univList g.adj).length + 2) [[a]] [a] with
    | none =>
      rw [hrun] at hspec
      exact hspec.elim
    | some o =>
      cases o with
      | none =>
        unfold PathGraph.find
        rw [if_neg hne, hrun]
      | some p =>
        rw [hrun] at hspec
        exact absurd ⟨p, hspec.1⟩ hnone

/-- A two-node graph with no edges, for the fallback witness. -/
def gDisc : PathGraph :=
  { pos := [("a", (0, 0)), ("b", (9, 9))], adj := [("a", []), ("b", [])] }

/-- Witness for C3: the identity path on the concrete world graph, the
direct home→office path (they are adjacent), and the two-point fallback on
an edgeless graph. -/
theorem find_path_spec_witness :
    (PathGraph.ofZones worldZones).find "home_a" "home_a" =
      [(PathGraph.ofZones worldZones).posD "home_a"] ∧
    (∃ p, Walk (PathGraph.ofZones worldZones).adj "home_a" "office" p ∧
      (PathGraph.ofZones worldZones).find "home_a" "office" =
        p.map (PathGraph.ofZones worldZones).posD ∧
      (PathGraph.ofZones worldZones).find "home_a" "office" ≠ [] ∧
      ((PathGraph.ofZones worldZones).find "home_a" "office").head? =
        some ((PathGraph.ofZones worldZones).posD "home_a") ∧
      ((PathGraph.ofZones worldZones).find "home_a" "office").getLast? =
        some ((PathGraph.ofZones worldZones).posD "office") ∧
      ∀ q, Walk (PathGraph.ofZones worldZones).adj "home_a" "office" q →
        p.length ≤ q.length) ∧
    gDisc.find "a" "b" = [gDisc.posD "a", gDisc.posD "b"] := by
  have h1 := find_path_spec (PathGraph.ofZones worldZones) "home_a" "office"
    (by decide)
  have h2 := find_path_spec gDisc "a" "b" (by decide)
  refine ⟨h1.1, h1.2.1 ?_, h2.2.2 ?_⟩
  · refine ⟨["home_a", "office"], ?_⟩
    refine Walk.cons "home_a" "office" "office" ["office"] (by decide)
      (Walk.single "office")
  · rintro ⟨q, hq⟩
    obtain ⟨s, t, hs, ht, hq2⟩ :
        ∃ s t, s = "a" ∧ t = "b" ∧ Walk gDisc.adj s t q :=
      ⟨_, _, rfl, rfl, hq⟩
    cases hq2 with
    | single u =>
      exact absurd (hs.symm.trans ht) (by decide)
    | cons u v w p hv hw =>
      rw [hs, show adjGet gDisc.adj "a" = [] from rfl] at hv
      cases hv
